import Mathlib

/-!
Verification of the image-processing core of the resizer repository:
border trimming (`trimImage`), edge-connected background removal
(`makeBackgroundTransparent`), exact color equality (`colorsEqual`) and the
target-dimension resolution policy inlined in `resizeHandler` / `processImage`
(modelled here as `resolveTargetSize`).

Modelling conventions:
* A pixel color is the 4-tuple returned by Go's `color.Color.RGBA()`:
  alpha-premultiplied 16-bit channels, i.e. values in `[0, 65535]`.
* An image is a width, a height and a pixel function; `Image.At` mirrors the
  bounds-checked `At` accessor of Go images (out-of-bounds reads give the
  zero color).  Bounds are rebased at origin `(0,0)`; the Go code only ever
  addresses pixels relative to `bounds.Min`, so this loses no generality.
* Writing a color into an output image and reading it back is treated as the
  identity on the 16-bit quadruple (exact for the 8-bit-derived colors the
  pipeline produces).
* The `[][]bool` background grid is modelled as a `Finset` of marked cells,
  and the unbounded `for len(queue) > 0` loop as a fuel-indexed recursion
  whose fuel (initial queue length + pixel count) is provably sufficient.
-/

/-- A color as seen through Go's `RGBA()`: four 16-bit channels. -/
structure Color where
  r : Nat
  g : Nat
  b : Nat
  a : Nat
deriving DecidableEq, Repr

/-- A rectangular pixel grid with bounds rebased at the origin. -/
structure Image where
  width : Nat
  height : Nat
  pix : Nat → Nat → Color

/-- Bounds-checked pixel access, mirroring Go's `img.At(x, y)` which returns
the zero color outside the image rectangle. -/
def Image.At (img : Image) (x y : Nat) : Color :=
  if x < img.width ∧ y < img.height then img.pix x y else ⟨0, 0, 0, 0⟩

/-- `colorsEqual` compares two colors for exact equality on all four
channels, as in the Go source. -/
def colorsEqual (c1 c2 : Color) : Bool :=
  c1.r == c2.r && c1.g == c2.g && c1.b == c2.b && c1.a == c2.a

/-- First index `i` in `[lo, lo + n)` (scanning upward) with `p i = true`,
mirroring the ascending edge-scan loops of `trimImage`. -/
def firstHit (p : Nat → Bool) : Nat → Nat → Option Nat
  | _, 0 => none
  | lo, n + 1 => if p lo then some lo else firstHit p (lo + 1) n

/-- Last index `i` in `[lo, lo + n)` (scanning downward from `lo + n - 1`)
with `p i = true`, mirroring the descending edge-scan loops of `trimImage`. -/
def lastHit (p : Nat → Bool) : Nat → Nat → Option Nat
  | _, 0 => none
  | lo, n + 1 => if p (lo + n) then some (lo + n) else lastHit p lo n

/-- The inner loop of the two row scans: does row `y` contain a
non-trimmable pixel? -/
def trimRowHas (img : Image) (st : Nat → Nat → Bool) (y : Nat) : Bool :=
  (List.range img.width).any fun x => ! st x y

/-- The inner loop of the two column scans, restricted to rows
`[top, bottom)`: does column `x` contain a non-trimmable pixel there? -/
def trimColHas (st : Nat → Nat → Bool) (top bottom x : Nat) : Bool :=
  (List.range' top (bottom - top)).any fun y => ! st x y

/-- The top-edge scan of `trimImage`: first row with content, default the
untouched `minY` (rebased to `0`). -/
def trimTop (img : Image) (st : Nat → Nat → Bool) : Nat :=
  (firstHit (trimRowHas img st) 0 img.height).getD 0

/-- The bottom-edge scan of `trimImage`: scans rows `maxY-1` down to `top`;
on a hit at `y` the exclusive bound is `y + 1`, default the untouched
`maxY`. -/
def trimBottom (img : Image) (st : Nat → Nat → Bool) : Nat :=
  match lastHit (trimRowHas img st) (trimTop img st) (img.height - trimTop img st) with
  | some y => y + 1
  | none => img.height

/-- The left-edge scan of `trimImage`, restricted to rows `[top, bottom)`. -/
def trimLeft (img : Image) (st : Nat → Nat → Bool) : Nat :=
  (firstHit (trimColHas st (trimTop img st) (trimBottom img st)) 0 img.width).getD 0

/-- The right-edge scan of `trimImage`: scans columns `maxX-1` down to
`left` over rows `[top, bottom)`; exclusive bound. -/
def trimRight (img : Image) (st : Nat → Nat → Bool) : Nat :=
  match lastHit (trimColHas st (trimTop img st) (trimBottom img st))
      (trimLeft img st) (img.width - trimLeft img st) with
  | some x => x + 1
  | none => img.width

/-- The four edge scans and the crop of Go's `trimImage`, parameterised by
the (single, fixed) trimmability predicate the Go closure `shouldTrim`
provides.  If the resulting box equals the full bounds the input is
returned unchanged; otherwise the box is copied into a fresh image rebased
at the origin. -/
def trimCore (img : Image) (st : Nat → Nat → Bool) : Image :=
  let top := trimTop img st
  let bottom := trimBottom img st
  let left := trimLeft img st
  let right := trimRight img st
  if left = 0 ∧ right = img.width ∧ top = 0 ∧ bottom = img.height then img
  else ⟨right - left, bottom - top, fun x y => img.At (left + x) (top + y)⟩

/-- The `shouldTrim` closure of Go's `trimImage`: the mode is fixed once from
the top-left reference pixel (`hasTransparency := a < 0xffff`), then a pixel
is trimmable iff its alpha is zero (transparency mode) or iff it equals the
reference color exactly (solid-color mode). -/
def trimShouldTrim (img : Image) : Nat → Nat → Bool :=
  let topLeft := img.At 0 0
  fun x y =>
    let c := img.At x y
    if topLeft.a < 65535 then c.a == 0 else colorsEqual c topLeft

/-- Go's `trimImage`: decide the trim mode once, then run the four edge
scans and crop (returning the input unchanged when the box is full). -/
def trimImage (img : Image) : Image :=
  trimCore img (trimShouldTrim img)

/-- The two trim modes named by the specification. -/
inductive TrimMode where
  | transparency
  | solidColor
deriving DecidableEq

/-- Modelled from the spec: the mode decided once from the top-left
reference pixel. -/
def trimMode (img : Image) : TrimMode :=
  if (img.At 0 0).a < 65535 then .transparency else .solidColor

/-- Modelled from the spec: trimmability of a pixel under a fixed mode. -/
def trimmable (m : TrimMode) (img : Image) (x y : Nat) : Bool :=
  match m with
  | .transparency => (img.At x y).a == 0
  | .solidColor => colorsEqual (img.At x y) (img.At 0 0)

/-- `⌊log2 n⌋` by repeated halving, with explicit fuel so that it reduces
in the kernel (`Nat.log2` is defined by well-founded recursion and does
not); `fuel ≥ n` always suffices since `n` halves at every step. -/
def log2Fuel : Nat → Nat → Nat
  | 0, _ => 0
  | fuel + 1, n => if n < 2 then 0 else log2Fuel fuel (n / 2) + 1

/-- `⌊log2 n⌋` (0 for `n = 0`). -/
def log2N (n : Nat) : Nat := log2Fuel n n

/-- The value of the IEEE-754 binary64 number nearest to the natural
number `n` (ties to even), i.e. Go's `float64(n)`: a number below `2^53`
is exact; otherwise the low `s = ⌊log2 n⌋ - 52` bits are rounded away,
half-way cases going to the even 53-bit mantissa.  Inputs from this
program are products of `int` values, far below binary64's overflow
threshold `2^1024`. -/
def flNat (n : Nat) : Nat :=
  if n < 2 ^ 53 then n
  else
    let s := log2N n - 52
    let hi := n / 2 ^ s
    let lo := n % 2 ^ s
    let half := 2 ^ (s - 1)
    let hi2 := if half < lo ∨ (lo = half ∧ hi % 2 = 1) then hi + 1 else hi
    hi2 * 2 ^ s

/-- Does the positive rational `p / c` reach `2 ^ e`?  (Cross-multiplied
so that it stays in natural-number arithmetic.) -/
def ratGePow2 (p c : Nat) (e : Int) : Bool :=
  if 0 ≤ e then c * 2 ^ e.toNat ≤ p else c ≤ p * 2 ^ (-e).toNat

/-- The binary64 exponent of the quotient `p / c` of two positive
naturals: the unique `e` with `2^e ≤ p/c < 2^(e+1)`.  It is
`⌊log2 p⌋ - ⌊log2 c⌋`, corrected down by one when the quotient falls
below that power of two. -/
def flDivExp (p c : Nat) : Int :=
  let e0 : Int := (log2N p : Int) - (log2N c : Int)
  if ratGePow2 p c e0 then e0 else e0 - 1

/-- The 53-bit mantissa of the correctly rounded (nearest, ties to even)
binary64 quotient of two positive naturals: the integer nearest
`(p/c) * 2^(52-e)`, half-way cases going to the even mantissa, so that the
float's value is `flDivMant p c * 2^(flDivExp p c - 52)`.  This is exactly
IEEE-754 division on integer-valued operands. -/
def flDivMant (p c : Nat) : Nat :=
  let e := flDivExp p c
  let num := if 0 ≤ 52 - e then p * 2 ^ (52 - e).toNat else p
  let den := if 0 ≤ 52 - e then c else c * 2 ^ (e - 52).toNat
  let m0 := num / den
  let r := num % den
  if den < 2 * r ∨ (2 * r = den ∧ m0 % 2 = 1) then m0 + 1 else m0

/-- Go's `int(f)` for a nonnegative binary64 value `m * 2^(e-52)`:
truncation toward zero, i.e. the integer part of the value. -/
def truncFloat (m : Nat) (e : Int) : Nat :=
  if 0 ≤ e - 52 then m * 2 ^ (e - 52).toNat else m / 2 ^ (52 - e).toNat

/-- Go's `int(float64(a) * float64(b) / float64(c))`: each operand is
converted to binary64 (`flNat`), the multiplication correctly rounds the
exact product of the two integer-valued floats (`flNat` again), the
division correctly rounds the exact quotient (`flDivMant`/`flDivExp`),
and the conversion back to `int` truncates toward zero.  Rounding and
truncation are symmetric under negation, so signs are factored out of the
magnitudes.  A zero divisor (excluded by the spec, which requires
positive original dimensions) would give `+Inf` in Go with an undefined
`int` conversion; it is modelled as `0`. -/
def goScale (a b c : Int) : Int :=
  let p := flNat (flNat a.natAbs * flNat b.natAbs)
  let cc := flNat c.natAbs
  if p = 0 ∨ cc = 0 then 0
  else
    let sgn : Int := (if a < 0 then -1 else 1) * (if b < 0 then -1 else 1) *
      (if c < 0 then -1 else 1)
    sgn * (truncFloat (flDivMant p cc) (flDivExp p cc) : Int)

/-- The dimension-resolution policy inlined in `resizeHandler` (and
duplicated in the WASM `processImage`).  Go computes the dependent
dimension as `int(float64(a) * float64(b) / float64(c))`, modelled
bit-exactly by `goScale`. -/
def resolveTargetSize (origWidth origHeight reqWidth reqHeight : Int) : Int × Int :=
  if reqWidth > 0 ∧ reqHeight = 0 then
    (reqWidth, goScale origHeight reqWidth origWidth)
  else if reqHeight > 0 ∧ reqWidth = 0 then
    (goScale origWidth reqHeight origHeight, reqHeight)
  else if reqWidth = 0 ∧ reqHeight = 0 then
    (origWidth, origHeight)
  else
    (reqWidth, reqHeight)

/-- The four axis-aligned neighbor offsets of Go's `dirs`. -/
def dirs : List (Int × Int) := [(0, 1), (0, -1), (1, 0), (-1, 0)]

/-- One neighbor examination of the BFS inner loop: bounds check, not yet
marked, color equals the reference — then mark and enqueue. -/
def neighborStep (img : Image) (bg : Color) (p : Nat × Nat)
    (acc : List (Nat × Nat) × Finset (Nat × Nat)) (d : Int × Int) :
    List (Nat × Nat) × Finset (Nat × Nat) :=
  let nx : Int := (p.1 : Int) + d.1
  let ny : Int := (p.2 : Int) + d.2
  if 0 ≤ nx ∧ nx < (img.width : Int) ∧ 0 ≤ ny ∧ ny < (img.height : Int) ∧
      (nx.toNat, ny.toNat) ∉ acc.2 ∧ colorsEqual (img.At nx.toNat ny.toNat) bg then
    (acc.1 ++ [(nx.toNat, ny.toNat)], insert (nx.toNat, ny.toNat) acc.2)
  else acc

/-- The `for len(queue) > 0` BFS loop of `makeBackgroundTransparent`, as a
fuel-indexed recursion: dequeue the front point, examine its four neighbors
(appending newly marked ones at the back of the queue), repeat. -/
def floodFill (img : Image) (bg : Color) :
    Nat → List (Nat × Nat) → Finset (Nat × Nat) → Finset (Nat × Nat)
  | 0, _, mask => mask
  | _ + 1, [], mask => mask
  | fuel + 1, p :: rest, mask =>
    let acc := dirs.foldl (neighborStep img bg p) (rest, mask)
    floodFill img bg fuel acc.1 acc.2

/-- One edge-seeding check: if the pixel matches the background color it is
enqueued and marked (unconditionally, as in the Go source — duplicates in
the queue are possible and harmless). -/
def seedPoint (img : Image) (bg : Color)
    (q : List (Nat × Nat) × Finset (Nat × Nat)) (p : Nat × Nat) :
    List (Nat × Nat) × Finset (Nat × Nat) :=
  if colorsEqual (img.At p.1 p.2) bg then (q.1 ++ [p], insert p q.2) else q

/-- The two seeding loops of `makeBackgroundTransparent`: for every column
the top then bottom edge pixel, then for every row the left then right edge
pixel. -/
def seedEdges (img : Image) (bg : Color) : List (Nat × Nat) × Finset (Nat × Nat) :=
  let w := img.width
  let h := img.height
  let afterTopBottom := (List.range w).foldl
    (fun q x => seedPoint img bg (seedPoint img bg q (x, 0)) (x, h - 1)) ([], ∅)
  (List.range h).foldl
    (fun q y => seedPoint img bg (seedPoint img bg q (0, y)) (w - 1, y)) afterTopBottom

/-- The background mask computed by `makeBackgroundTransparent`: seed the
edges with the top-left reference color, then flood fill.  The fuel bound
(initial queue length plus pixel count) is sufficient because every dequeue
consumes one queue entry and every enqueue marks a previously unmarked
in-bounds cell. -/
def bgMask (img : Image) : Finset (Nat × Nat) :=
  let bg := img.At 0 0
  let seeds := seedEdges img bg
  floodFill img bg (seeds.1.length + img.width * img.height) seeds.1 seeds.2

/-- Go's `makeBackgroundTransparent`: pixels marked background become fully
transparent `(0,0,0,0)` (Go's `color.Transparent` through `RGBA()`), all
others are copied from the input. -/
def makeBackgroundTransparent (img : Image) : Image :=
  let mask := bgMask img
  ⟨img.width, img.height, fun x y => if (x, y) ∈ mask then ⟨0, 0, 0, 0⟩ else img.At x y⟩

/-- 4-connectivity between two cells. -/
def adjacent (p q : Nat × Nat) : Prop :=
  (p.1 = q.1 ∧ (p.2 + 1 = q.2 ∨ q.2 + 1 = p.2)) ∨
  (p.2 = q.2 ∧ (p.1 + 1 = q.1 ∨ q.1 + 1 = p.1))

/-- An in-bounds cell whose color equals the top-left reference color. -/
def bgCell (img : Image) (p : Nat × Nat) : Prop :=
  p.1 < img.width ∧ p.2 < img.height ∧ img.At p.1 p.2 = img.At 0 0

/-- An in-bounds cell lying on one of the four border edges. -/
def borderCell (img : Image) (p : Nat × Nat) : Prop :=
  p.1 < img.width ∧ p.2 < img.height ∧
  (p.1 = 0 ∨ p.1 = img.width - 1 ∨ p.2 = 0 ∨ p.2 = img.height - 1)

/-- One step of a background path: move to a 4-adjacent in-bounds cell of
the reference color. -/
def bgStep (img : Image) (p q : Nat × Nat) : Prop := adjacent p q ∧ bgCell img q

/-- A cell is reachable as background: some border cell of the reference
color reaches it through a 4-connected path of reference-colored cells. -/
def reachableBg (img : Image) (p : Nat × Nat) : Prop :=
  ∃ b, borderCell img b ∧ bgCell img b ∧ Relation.ReflTransGen (bgStep img) b p

/-- All in-bounds cells of an image, as a finite set. -/
def gridCells (img : Image) : Finset (Nat × Nat) :=
  Finset.range img.width ×ˢ Finset.range img.height

/-- Invariant of the seeding loops: queue and mask hold the same cells, and
every marked cell is an edge cell carrying the reference color. -/
def SeedInv (img : Image) (q : List (Nat × Nat) × Finset (Nat × Nat)) : Prop :=
  (∀ x ∈ q.1, x ∈ q.2) ∧ (∀ x ∈ q.2, borderCell img x ∧ bgCell img x) ∧
  (∀ x ∈ q.2, x ∈ q.1)

/-- Opaque white as seen through `RGBA()`. -/
def whiteC : Color := ⟨65535, 65535, 65535, 65535⟩

/-- Opaque red as seen through `RGBA()`. -/
def redC : Color := ⟨65535, 0, 0, 65535⟩

/-- The 10×10 white image with a single red pixel at (5,5) from the spec's
single-pixel-content scenario. -/
def singleRed : Image :=
  ⟨10, 10, fun x y => if x = 5 ∧ y = 5 then redC else whiteC⟩

/-- A 3×3 image (white top row and left column, a red block, and a white
pixel in the bottom-right corner) on which a second trim, using the cropped
image's new top-left reference color, trims further:

```
W W W
W R R
W R W
```
-/
def ex3 : Image :=
  ⟨3, 3, fun x y =>
    if y = 0 then whiteC else if x = 0 then whiteC
    else if x = 2 ∧ y = 2 then whiteC else redC⟩

/-- The spec's ring scenario: 10×10 white image, red ring over
(2,2)-(7,7) with a white 2×2 patch at (4,4)-(5,5) enclosed by it. -/
def ringImg : Image :=
  ⟨10, 10, fun x y =>
    if 2 ≤ x ∧ x ≤ 7 ∧ 2 ≤ y ∧ y ≤ 7 ∧ ¬ (4 ≤ x ∧ x ≤ 5 ∧ 4 ≤ y ∧ y ≤ 5) then redC
    else whiteC⟩

/-- A 5×5 all-white image (the all-same-color test fixture). -/
def uniform5 : Image := ⟨5, 5, fun _ _ => whiteC⟩

/-! ## Basic lemmas -/

theorem colorsEqual_iff (c1 c2 : Color) : colorsEqual c1 c2 = true ↔ c1 = c2 := by
  cases c1; cases c2
  simp [colorsEqual, Color.mk.injEq, and_assoc]

theorem IAt_eq_pix (img : Image) {x y : Nat} (hx : x < img.width) (hy : y < img.height) :
    img.At x y = img.pix x y := by
  unfold Image.At
  rw [if_pos ⟨hx, hy⟩]

/-! ## Characterizing the scan helpers -/

theorem firstHit_eq_none {p : Nat → Bool} :
    ∀ {n lo : Nat}, firstHit p lo n = none ↔ ∀ i, lo ≤ i → i < lo + n → p i = false := by
  intro n
  induction n with
  | zero =>
    intro lo
    constructor
    · intro _ i h1 h2
      omega
    · intro _
      rfl
  | succ n ih =>
    intro lo
    rw [firstHit]
    by_cases h : p lo = true
    · rw [if_pos h]
      constructor
      · intro hc
        exact absurd hc (by simp)
      · intro hall
        have := hall lo le_rfl (by omega)
        rw [h] at this
        cases this
    · have hf : p lo = false := by
        cases hpl : p lo
        · rfl
        · exact absurd hpl h
      rw [if_neg h, ih]
      constructor
      · intro hall i h1 h2
        rcases Nat.lt_or_ge i (lo + 1) with hlt | hge
        · have hi : i = lo := by omega
          rw [hi]
          exact hf
        · exact hall i hge (by omega)
      · intro hall i h1 h2
        exact hall i (by omega) (by omega)

theorem firstHit_eq_some {p : Nat → Bool} :
    ∀ {n lo j : Nat}, firstHit p lo n = some j ↔
      lo ≤ j ∧ j < lo + n ∧ p j = true ∧ ∀ i, lo ≤ i → i < j → p i = false := by
  intro n
  induction n with
  | zero =>
    intro lo j
    constructor
    · intro hc
      exact absurd hc (by simp [firstHit])
    · rintro ⟨h1, h2, -⟩
      omega
  | succ n ih =>
    intro lo j
    rw [firstHit]
    by_cases h : p lo = true
    · rw [if_pos h]
      constructor
      · intro hj
        have hj2 : lo = j := by
          injection hj
        subst hj2
        exact ⟨le_rfl, by omega, h, fun i h1 h2 => by omega⟩
      · rintro ⟨h1, h2, h3, h4⟩
        have hj : j = lo := by
          by_contra hne
          have := h4 lo le_rfl (by omega)
          rw [h] at this
          cases this
        rw [hj]
    · have hf : p lo = false := by
        cases hpl : p lo
        · rfl
        · exact absurd hpl h
      rw [if_neg h, ih]
      constructor
      · rintro ⟨h1, h2, h3, h4⟩
        refine ⟨by omega, by omega, h3, ?_⟩
        intro i hi1 hi2
        rcases Nat.lt_or_ge i (lo + 1) with hlt | hge
        · have hi : i = lo := by omega
          rw [hi]
          exact hf
        · exact h4 i hge hi2
      · rintro ⟨h1, h2, h3, h4⟩
        have hjlo : j ≠ lo := by
          intro he
          rw [he, hf] at h3
          cases h3
        exact ⟨by omega, by omega, h3, fun i hi1 hi2 => h4 i (by omega) hi2⟩

theorem lastHit_eq_none {p : Nat → Bool} {lo : Nat} :
    ∀ {n : Nat}, lastHit p lo n = none ↔ ∀ i, lo ≤ i → i < lo + n → p i = false := by
  intro n
  induction n with
  | zero =>
    constructor
    · intro _ i h1 h2
      omega
    · intro _
      rfl
  | succ n ih =>
    rw [lastHit]
    by_cases h : p (lo + n) = true
    · rw [if_pos h]
      constructor
      · intro hc
        exact absurd hc (by simp)
      · intro hall
        have := hall (lo + n) (by omega) (by omega)
        rw [h] at this
        cases this
    · have hf : p (lo + n) = false := by
        cases hpl : p (lo + n)
        · rfl
        · exact absurd hpl h
      rw [if_neg h, ih]
      constructor
      · intro hall i h1 h2
        rcases Nat.lt_or_ge i (lo + n) with hlt | hge
        · exact hall i h1 hlt
        · have hi : i = lo + n := by omega
          rw [hi]
          exact hf
      · intro hall i h1 h2
        exact hall i h1 (by omega)

theorem lastHit_eq_some {p : Nat → Bool} {lo : Nat} :
    ∀ {n j : Nat}, lastHit p lo n = some j ↔
      lo ≤ j ∧ j < lo + n ∧ p j = true ∧ ∀ i, j < i → i < lo + n → p i = false := by
  intro n
  induction n with
  | zero =>
    intro j
    constructor
    · intro hc
      exact absurd hc (by simp [lastHit])
    · rintro ⟨h1, h2, -⟩
      omega
  | succ n ih =>
    intro j
    rw [lastHit]
    by_cases h : p (lo + n) = true
    · rw [if_pos h]
      constructor
      · intro hj
        have hj2 : lo + n = j := by
          injection hj
        subst hj2
        exact ⟨by omega, by omega, h, fun i h1 h2 => by omega⟩
      · rintro ⟨h1, h2, h3, h4⟩
        have hj : j = lo + n := by
          by_contra hne
          have := h4 (lo + n) (by omega) (by omega)
          rw [h] at this
          cases this
        rw [hj]
    · have hf : p (lo + n) = false := by
        cases hpl : p (lo + n)
        · rfl
        · exact absurd hpl h
      rw [if_neg h, ih]
      constructor
      · rintro ⟨h1, h2, h3, h4⟩
        refine ⟨h1, by omega, h3, ?_⟩
        intro i hi1 hi2
        rcases Nat.lt_or_ge i (lo + n) with hlt | hge
        · exact h4 i hi1 hlt
        · have hi : i = lo + n := by omega
          rw [hi]
          exact hf
      · rintro ⟨h1, h2, h3, h4⟩
        have hjn : j ≠ lo + n := by
          intro he
          rw [he, hf] at h3
          cases h3
        exact ⟨h1, by omega, h3, fun i hi1 hi2 => h4 i hi1 (by omega)⟩

/-! ## Bounds of the trim scans -/

theorem trimTop_le (img : Image) (st : Nat → Nat → Bool) : trimTop img st ≤ img.height := by
  unfold trimTop
  cases hfh : firstHit (trimRowHas img st) 0 img.height with
  | none => simp
  | some j =>
    rw [firstHit_eq_some] at hfh
    simp only [Option.getD_some]
    omega

theorem trimBottom_le (img : Image) (st : Nat → Nat → Bool) : trimBottom img st ≤ img.height := by
  unfold trimBottom
  cases hlh : lastHit (trimRowHas img st) (trimTop img st) (img.height - trimTop img st) with
  | none => exact le_rfl
  | some y =>
    rw [lastHit_eq_some] at hlh
    have := trimTop_le img st
    show y + 1 ≤ img.height
    omega

theorem trimLeft_le (img : Image) (st : Nat → Nat → Bool) : trimLeft img st ≤ img.width := by
  unfold trimLeft
  cases hfh : firstHit (trimColHas st (trimTop img st) (trimBottom img st)) 0 img.width with
  | none => simp
  | some j =>
    rw [firstHit_eq_some] at hfh
    simp only [Option.getD_some]
    omega

theorem trimRight_le (img : Image) (st : Nat → Nat → Bool) : trimRight img st ≤ img.width := by
  unfold trimRight
  cases hlh : lastHit (trimColHas st (trimTop img st) (trimBottom img st))
      (trimLeft img st) (img.width - trimLeft img st) with
  | none => exact le_rfl
  | some x =>
    rw [lastHit_eq_some] at hlh
    have := trimLeft_le img st
    show x + 1 ≤ img.width
    omega

theorem trimCore_bounds_le (img : Image) (st : Nat → Nat → Bool) :
    (trimCore img st).width ≤ img.width ∧ (trimCore img st).height ≤ img.height := by
  unfold trimCore
  by_cases hbox : trimLeft img st = 0 ∧ trimRight img st = img.width ∧
      trimTop img st = 0 ∧ trimBottom img st = img.height
  · rw [if_pos hbox]
    exact ⟨le_rfl, le_rfl⟩
  · rw [if_neg hbox]
    have h1 := trimRight_le img st
    have h2 := trimBottom_le img st
    exact ⟨by simpa using by omega, by simpa using by omega⟩

/-! ## Trimming uniform images -/

theorem trimCore_eq_self_of_rowHas_false (img : Image) (st : Nat → Nat → Bool)
    (hrow : ∀ y, y < img.height → trimRowHas img st y = false) :
    trimCore img st = img := by
  have htop : trimTop img st = 0 := by
    unfold trimTop
    have hnone : firstHit (trimRowHas img st) 0 img.height = none := by
      rw [firstHit_eq_none]
      intro i h1 h2
      exact hrow i (by omega)
    rw [hnone]
    rfl
  have hbot : trimBottom img st = img.height := by
    unfold trimBottom
    have hnone : lastHit (trimRowHas img st) (trimTop img st)
        (img.height - trimTop img st) = none := by
      rw [lastHit_eq_none]
      intro i h1 h2
      have := trimTop_le img st
      exact hrow i (by omega)
    rw [hnone]
  have hst : ∀ x, x < img.width → ∀ y, y < img.height → st x y = true := by
    intro x hx y hy
    have h := hrow y hy
    unfold trimRowHas at h
    rw [List.any_eq_false] at h
    have h2 := h x (List.mem_range.mpr hx)
    simp only [Bool.not_eq_true'] at h2
    simpa using h2
  have hcol : ∀ x, x < img.width →
      trimColHas st (trimTop img st) (trimBottom img st) x = false := by
    intro x hx
    unfold trimColHas
    rw [List.any_eq_false]
    intro y hy
    rw [List.mem_range'_1] at hy
    have hb := trimBottom_le img st
    have hst2 := hst x hx y (by omega)
    simp [hst2]
  have hleft : trimLeft img st = 0 := by
    unfold trimLeft
    have hnone : firstHit (trimColHas st (trimTop img st) (trimBottom img st)) 0 img.width
        = none := by
      rw [firstHit_eq_none]
      intro i h1 h2
      exact hcol i (by omega)
    rw [hnone]
    rfl
  have hright : trimRight img st = img.width := by
    unfold trimRight
    have hnone : lastHit (trimColHas st (trimTop img st) (trimBottom img st))
        (trimLeft img st) (img.width - trimLeft img st) = none := by
      rw [lastHit_eq_none]
      intro i h1 h2
      have := trimLeft_le img st
      exact hcol i (by omega)
    rw [hnone]
  unfold trimCore
  rw [if_pos ⟨hleft, hright, htop, hbot⟩]

theorem trimCore_eq_self_of_st_false (img : Image) (st : Nat → Nat → Bool)
    (hw : 0 < img.width) (hh : 0 < img.height)
    (hst : ∀ x, x < img.width → ∀ y, y < img.height → st x y = false) :
    trimCore img st = img := by
  have hrow : ∀ y, y < img.height → trimRowHas img st y = true := by
    intro y hy
    unfold trimRowHas
    rw [List.any_eq_true]
    exact ⟨0, List.mem_range.mpr hw, by simp [hst 0 hw y hy]⟩
  have htop : trimTop img st = 0 := by
    unfold trimTop
    have hsome : firstHit (trimRowHas img st) 0 img.height = some 0 := by
      rw [firstHit_eq_some]
      exact ⟨le_rfl, by omega, hrow 0 hh, fun i h1 h2 => by omega⟩
    rw [hsome]
    rfl
  have hbot : trimBottom img st = img.height := by
    unfold trimBottom
    rw [htop]
    have hsome : lastHit (trimRowHas img st) 0 (img.height - 0) = some (img.height - 1) := by
      rw [lastHit_eq_some]
      exact ⟨by omega, by omega, hrow (img.height - 1) (by omega), fun i h1 h2 => by omega⟩
    rw [hsome]
    show img.height - 1 + 1 = img.height
    omega
  have hcol : ∀ x, x < img.width →
      trimColHas st (trimTop img st) (trimBottom img st) x = true := by
    intro x hx
    unfold trimColHas
    rw [List.any_eq_true]
    refine ⟨trimTop img st, ?_, ?_⟩
    · rw [List.mem_range'_1]
      rw [htop, hbot]
      omega
    · rw [htop]
      simp [hst x hx 0 hh]
  have hleft : trimLeft img st = 0 := by
    unfold trimLeft
    have hsome : firstHit (trimColHas st (trimTop img st) (trimBottom img st)) 0 img.width
        = some 0 := by
      rw [firstHit_eq_some]
      exact ⟨le_rfl, by omega, hcol 0 hw, fun i h1 h2 => by omega⟩
    rw [hsome]
    rfl
  have hright : trimRight img st = img.width := by
    unfold trimRight
    rw [hleft]
    have hsome : lastHit (trimColHas st (trimTop img st) (trimBottom img st)) 0
        (img.width - 0) = some (img.width - 1) := by
      rw [lastHit_eq_some]
      exact ⟨by omega, by omega, hcol (img.width - 1) (by omega), fun i h1 h2 => by omega⟩
    rw [hsome]
    show img.width - 1 + 1 = img.width
    omega
  unfold trimCore
  rw [if_pos ⟨hleft, hright, htop, hbot⟩]

/-! ## Claim theorems: trimming -/

/-- C2: For every image in which every pixel has the same color, `Trim`
returns the input image unchanged — the original image itself, not an
empty or zero-size one. -/
theorem trim_uniform_returns_input (img : Image)
    (huni : ∀ x, x < img.width → ∀ y, y < img.height → img.pix x y = img.pix 0 0) :
    trimImage img = img := by
  unfold trimImage
  by_cases hw : 0 < img.width
  · by_cases hh : 0 < img.height
    · have hatxy : ∀ x, x < img.width → ∀ y, y < img.height → img.At x y = img.At 0 0 := by
        intro x hx y hy
        rw [IAt_eq_pix img hx hy, IAt_eq_pix img hw hh]
        exact huni x hx y hy
      by_cases htr : (img.At 0 0).a < 65535
      · by_cases hz : (img.At 0 0).a = 0
        · apply trimCore_eq_self_of_rowHas_false
          intro y hy
          unfold trimRowHas
          rw [List.any_eq_false]
          intro x hxmem
          rw [List.mem_range] at hxmem
          simp only [trimShouldTrim, Bool.not_eq_true']
          rw [if_pos htr, hatxy x hxmem y hy, hz]
          decide
        · apply trimCore_eq_self_of_st_false img _ hw hh
          intro x hx y hy
          simp only [trimShouldTrim]
          rw [if_pos htr, hatxy x hx y hy]
          simpa using hz
      · apply trimCore_eq_self_of_rowHas_false
        intro y hy
        unfold trimRowHas
        rw [List.any_eq_false]
        intro x hxmem
        rw [List.mem_range] at hxmem
        simp only [trimShouldTrim, Bool.not_eq_true']
        rw [if_neg htr, hatxy x hxmem y hy]
        have hce := (colorsEqual_iff (img.At 0 0) (img.At 0 0)).mpr rfl
        simp [hce]
    · apply trimCore_eq_self_of_rowHas_false
      intro y hy
      omega
  · apply trimCore_eq_self_of_rowHas_false
    intro y hy
    unfold trimRowHas
    have hw0 : img.width = 0 := by omega
    rw [hw0]
    rfl

/-- Witness for C2 at a concrete input: the all-white 5×5 image is
returned unchanged. -/
theorem trim_uniform_returns_input_witness : trimImage uniform5 = uniform5 :=
  trim_uniform_returns_input uniform5 (fun _ _ _ _ => rfl)

/-- C4 (counterexample): `Trim` is not idempotent on bounds — on `ex3` a
single trim yields a 2×2 image whose own top-left reference color (red)
lets a second trim shrink it to 1×1. -/
theorem trim_not_idempotent_on_bounds :
    ¬ ((trimImage (trimImage ex3)).width = (trimImage ex3).width ∧
       (trimImage (trimImage ex3)).height = (trimImage ex3).height) := by
  decide

/-- C4 (amended): applying `Trim` twice yields bounds no larger than one
application — each `Trim` is bounds-nonincreasing — but a second trim may
strictly shrink the bounds further. -/
theorem trim_twice_bounds_le (img : Image) :
    (trimImage (trimImage img)).width ≤ (trimImage img).width ∧
    (trimImage (trimImage img)).height ≤ (trimImage img).height :=
  trimCore_bounds_le (trimImage img) _

/-- C8: the trim mode is decided exactly once per call from the top-left
reference pixel (`transparency` iff its alpha is below full opacity), and
the four edge scans of `trimCore` all use that one fixed trimmability
predicate: alpha-is-zero in transparency mode, exact 4-channel equality
with the reference in solid-color mode. -/
theorem trim_mode_decided_once (img : Image) :
    trimImage img = trimCore img (trimmable (trimMode img) img) ∧
    (trimMode img = TrimMode.transparency ↔ (img.At 0 0).a < 65535) ∧
    ∀ x y, trimmable (trimMode img) img x y =
      (if (img.At 0 0).a < 65535 then (img.At x y).a == 0
       else colorsEqual (img.At x y) (img.At 0 0)) := by
  refine ⟨?_, ?_, ?_⟩
  · unfold trimImage
    congr 1
    funext x y
    simp only [trimShouldTrim, trimmable, trimMode]
    by_cases h : (img.At 0 0).a < 65535
    · simp only [if_pos h]
    · simp only [if_neg h]
  · unfold trimMode
    by_cases h : (img.At 0 0).a < 65535
    · simp [h]
    · simp [h]
  · intro x y
    simp only [trimmable, trimMode]
    by_cases h : (img.At 0 0).a < 65535
    · simp only [if_pos h]
    · simp only [if_neg h]

/-! ## Correctness of the binary64 model on the exact range -/

theorem log2Fuel_bracket :
    ∀ (fuel n : Nat), 0 < n → n ≤ fuel →
      2 ^ log2Fuel fuel n ≤ n ∧ n < 2 ^ (log2Fuel fuel n + 1) := by
  intro fuel
  induction fuel with
  | zero =>
    intro n h1 h2
    omega
  | succ fuel ih =>
    intro n h1 h2
    rw [log2Fuel]
    by_cases hn : n < 2
    · rw [if_pos hn]
      constructor
      · simpa using h1
      · simpa using hn
    · rw [if_neg hn]
      obtain ⟨hrl, hru⟩ := ih (n / 2) (by omega) (by omega)
      constructor
      · calc 2 ^ (log2Fuel fuel (n / 2) + 1)
            = 2 ^ log2Fuel fuel (n / 2) * 2 := by rw [pow_succ]
          _ ≤ n / 2 * 2 := Nat.mul_le_mul_right 2 hrl
          _ ≤ n := by omega
      · set B := 2 ^ (log2Fuel fuel (n / 2) + 1) with hB
        have h4 : n < B * 2 := by omega
        calc n < B * 2 := h4
          _ = 2 ^ (log2Fuel fuel (n / 2) + 1 + 1) := by rw [hB, ← pow_succ]

theorem log2N_bracket (n : Nat) (h : 0 < n) :
    2 ^ log2N n ≤ n ∧ n < 2 ^ (log2N n + 1) :=
  log2Fuel_bracket n n h le_rfl

theorem flNat_of_lt {n : Nat} (h : n < 2 ^ 53) : flNat n = n := by
  unfold flNat
  rw [if_pos h]

theorem flDivExp_low (p c : Nat) (hp : 0 < p) (hc : 0 < c) :
    ratGePow2 p c (flDivExp p c) = true := by
  obtain ⟨hpl, hpu⟩ := log2N_bracket p hp
  obtain ⟨hcl, hcu⟩ := log2N_bracket c hc
  simp only [flDivExp]
  set L := log2N p
  set D := log2N c
  by_cases h0 : ratGePow2 p c ((L : Int) - (D : Int)) = true
  · rw [if_pos h0]
    exact h0
  · rw [if_neg h0]
    unfold ratGePow2
    split_ifs with hsgn
    · have hDL : D + 1 ≤ L := by omega
      have htn : ((L : Int) - (D : Int) - 1).toNat = L - D - 1 := by omega
      rw [htn, decide_eq_true_eq]
      have h1 : c * 2 ^ (L - D - 1) < 2 ^ (D + 1) * 2 ^ (L - D - 1) :=
        mul_lt_mul_of_pos_right hcu (pow_pos (by omega) _)
      have h2 : (2 : Nat) ^ (D + 1) * 2 ^ (L - D - 1) = 2 ^ L := by
        rw [← pow_add]
        congr 1
        omega
      exact le_of_lt (lt_of_lt_of_le (h2 ▸ h1) hpl)
    · have hLD : L ≤ D := by omega
      have htn : (-((L : Int) - (D : Int) - 1)).toNat = D + 1 - L := by omega
      rw [htn, decide_eq_true_eq]
      have h2 : (2 : Nat) ^ L * 2 ^ (D + 1 - L) = 2 ^ (D + 1) := by
        rw [← pow_add]
        congr 1
        omega
      calc c ≤ 2 ^ (D + 1) := le_of_lt hcu
        _ = 2 ^ L * 2 ^ (D + 1 - L) := h2.symm
        _ ≤ p * 2 ^ (D + 1 - L) := Nat.mul_le_mul_right _ hpl

theorem flDivExp_le52 (p c : Nat) (hp : 0 < p) (h53 : p < 2 ^ 53) :
    flDivExp p c ≤ 52 := by
  have hL : log2N p ≤ 52 := by
    obtain ⟨hpl, -⟩ := log2N_bracket p hp
    have h1 : (2 : Nat) ^ log2N p < 2 ^ 53 := lt_of_le_of_lt hpl h53
    have h2 : log2N p < 53 := (Nat.pow_lt_pow_iff_right (by omega)).mp h1
    omega
  simp only [flDivExp]
  split_ifs <;> omega

theorem flDiv_c_lt (p c : Nat) (hp : 0 < p) (hc : 0 < c) (h53 : p < 2 ^ 53) :
    c < 2 * 2 ^ ((52 : Int) - flDivExp p c).toNat := by
  have hlow := flDivExp_low p c hp hc
  have he52 := flDivExp_le52 p c hp h53
  set e := flDivExp p c
  unfold ratGePow2 at hlow
  split_ifs at hlow with hsgn
  · rw [decide_eq_true_eq] at hlow
    have h1 : c * 2 ^ e.toNat < 2 ^ 53 := lt_of_le_of_lt hlow h53
    have h2 : (2 : Nat) ^ 53 = 2 ^ e.toNat * (2 * 2 ^ (52 - e.toNat)) := by
      rw [← pow_succ' 2 (52 - e.toNat), ← pow_add]
      congr 1
      omega
    rw [h2] at h1
    have h5 : ((52 : Int) - e).toNat = 52 - e.toNat := by omega
    rw [h5]
    rcases Nat.lt_or_ge c (2 * 2 ^ (52 - e.toNat)) with h | h
    · exact h
    · exfalso
      have h4 : 2 * 2 ^ (52 - e.toNat) * 2 ^ e.toNat ≤ c * 2 ^ e.toNat :=
        Nat.mul_le_mul_right _ h
      rw [mul_comm (2 * 2 ^ (52 - e.toNat)) (2 ^ e.toNat)] at h4
      exact absurd (lt_of_lt_of_le h1 h4) (lt_irrefl _)
  · rw [decide_eq_true_eq] at hlow
    have h1 : p * 2 ^ (-e).toNat < 2 ^ 53 * 2 ^ (-e).toNat :=
      mul_lt_mul_of_pos_right h53 (pow_pos (by omega) _)
    have h2 : (2 : Nat) ^ 53 * 2 ^ (-e).toNat = 2 * 2 ^ (52 + (-e).toNat) := by
      rw [← pow_succ' 2 (52 + (-e).toNat), ← pow_add]
      congr 1
      omega
    have h5 : ((52 : Int) - e).toNat = 52 + (-e).toNat := by omega
    rw [h5]
    calc c ≤ p * 2 ^ (-e).toNat := hlow
      _ < 2 ^ 53 * 2 ^ (-e).toNat := h1
      _ = 2 * 2 ^ (52 + (-e).toNat) := h2

theorem flDivM_bounds (p c : Nat) (hc : 0 < c) (he52 : flDivExp p c ≤ 52) :
    2 * (c * flDivMant p c) ≤ 2 * (p * 2 ^ ((52 : Int) - flDivExp p c).toNat) + c ∧
    2 * (p * 2 ^ ((52 : Int) - flDivExp p c).toNat) ≤ 2 * (c * flDivMant p c) + c := by
  simp only [flDivMant]
  set e := flDivExp p c
  have hif : (0 : Int) ≤ 52 - e := by omega
  simp only [if_pos hif]
  set K := 2 ^ ((52 : Int) - e).toNat with hK
  set m0 := p * K / c with hm0
  set r := p * K % c with hr0
  have hdm : c * m0 + r = p * K := Nat.div_add_mod (p * K) c
  have hrc : r < c := Nat.mod_lt _ hc
  split_ifs with hcond
  · have hc2r : c ≤ 2 * r := by
      rcases hcond with h | ⟨h, -⟩
      · omega
      · omega
    rw [Nat.mul_succ]
    set A := c * m0
    set B := p * K
    omega
  · have hc2r : 2 * r ≤ c := by
      push_neg at hcond
      have := hcond.1
      omega
    set A := c * m0
    set B := p * K
    omega

theorem flDiv_trunc_eq_div (p c : Nat) (hp : 0 < p) (hc : 0 < c)
    (hbound : p + c ≤ 2 ^ 53) :
    truncFloat (flDivMant p c) (flDivExp p c) = p / c := by
  have hpow : (2 : Nat) ^ 53 = 9007199254740992 := by norm_num
  have h53 : p < 2 ^ 53 := by
    rw [hpow] at hbound ⊢
    omega
  have he52 := flDivExp_le52 p c hp h53
  have hcK := flDiv_c_lt p c hp hc h53
  obtain ⟨hMlow, hMhigh⟩ := flDivM_bounds p c hc he52
  set e := flDivExp p c
  set M := flDivMant p c
  set K := 2 ^ ((52 : Int) - e).toNat with hK
  have hKpos : 0 < K := pow_pos (by omega) _
  set n := p / c with hn
  have hdm : c * n + p % c = p := Nat.div_add_mod p c
  have hmod : p % c < c := Nat.mod_lt _ hc
  have hn1 : c * n ≤ p := by
    set A := c * n
    omega
  have hn2 : p + 1 ≤ c * (n + 1) := by
    rw [Nat.mul_succ]
    set A := c * n
    omega
  have hg1 : n * K ≤ M := by
    by_contra hcon
    push_neg at hcon
    have hB : c * M + c ≤ c * (n * K) := by
      have h1 : c * (M + 1) ≤ c * (n * K) := Nat.mul_le_mul_left c hcon
      rw [Nat.mul_succ] at h1
      exact h1
    have hA : c * (n * K) ≤ p * K := by
      rw [← mul_assoc]
      exact Nat.mul_le_mul_right K hn1
    set X := c * M
    set Y := c * (n * K)
    set Z := p * K
    omega
  have hg2 : M < (n + 1) * K := by
    by_contra hcon
    push_neg at hcon
    have hB : c * ((n + 1) * K) ≤ c * M := Nat.mul_le_mul_left c hcon
    have hA : p * K + K ≤ c * ((n + 1) * K) := by
      have h1 : (p + 1) * K ≤ c * (n + 1) * K := Nat.mul_le_mul_right K hn2
      rw [add_mul, one_mul, mul_assoc] at h1
      exact h1
    set X := c * M
    set Y := c * ((n + 1) * K)
    set Z := p * K
    omega
  have htr : truncFloat M e = M / K := by
    unfold truncFloat
    split_ifs with htf
    · have h1 : (e - 52).toNat = 0 := by omega
      have h2 : ((52 : Int) - e).toNat = 0 := by omega
      rw [h1, hK, h2]
      simp
    · rw [← hK]
  rw [htr]
  exact le_antisymm (Nat.lt_succ_iff.mp ((Nat.div_lt_iff_lt_mul hKpos).mpr hg2))
    ((Nat.le_div_iff_mul_le hKpos).mpr hg1)

theorem goScale_eq_div (a b c : Int) (ha : 0 < a) (hb : 0 < b) (hc : 0 < c)
    (hbound : a * b + c ≤ 2 ^ 53) :
    goScale a b c = a * b / c := by
  have haN : ((a.natAbs : Nat) : Int) = a := Int.natAbs_of_nonneg (le_of_lt ha)
  have hbN : ((b.natAbs : Nat) : Int) = b := Int.natAbs_of_nonneg (le_of_lt hb)
  have hcN : ((c.natAbs : Nat) : Int) = c := Int.natAbs_of_nonneg (le_of_lt hc)
  have hposNa : 0 < a.natAbs := Int.natAbs_pos.mpr (ne_of_gt ha)
  have hposNb : 0 < b.natAbs := Int.natAbs_pos.mpr (ne_of_gt hb)
  have hposNc : 0 < c.natAbs := Int.natAbs_pos.mpr (ne_of_gt hc)
  have hprodpos : 0 < a.natAbs * b.natAbs := Nat.mul_pos hposNa hposNb
  have hpow : (2 : Nat) ^ 53 = 9007199254740992 := by norm_num
  have hbound2 : a.natAbs * b.natAbs + c.natAbs ≤ 2 ^ 53 := by
    have h1 : ((a.natAbs * b.natAbs + c.natAbs : Nat) : Int) = a * b + c := by
      push_cast
      rw [abs_of_pos ha, abs_of_pos hb, abs_of_pos hc]
    have h2 : ((a.natAbs * b.natAbs + c.natAbs : Nat) : Int) ≤ (2 : Int) ^ 53 := by
      rw [h1]
      exact hbound
    exact_mod_cast h2
  have haS : a.natAbs < 2 ^ 53 := by
    have h1 : a.natAbs ≤ a.natAbs * b.natAbs := Nat.le_mul_of_pos_right _ hposNb
    rw [hpow] at hbound2 ⊢
    set PR := a.natAbs * b.natAbs
    omega
  have hbS : b.natAbs < 2 ^ 53 := by
    have h1 : b.natAbs ≤ a.natAbs * b.natAbs := Nat.le_mul_of_pos_left _ hposNa
    rw [hpow] at hbound2 ⊢
    set PR := a.natAbs * b.natAbs
    omega
  have hcS : c.natAbs < 2 ^ 53 := by
    rw [hpow] at hbound2 ⊢
    set PR := a.natAbs * b.natAbs
    omega
  have hprodS : a.natAbs * b.natAbs < 2 ^ 53 := by
    rw [hpow] at hbound2 ⊢
    set PR := a.natAbs * b.natAbs
    omega
  simp only [goScale]
  rw [flNat_of_lt haS, flNat_of_lt hbS, flNat_of_lt hprodS, flNat_of_lt hcS]
  rw [if_neg (by
    push_neg
    exact ⟨Nat.pos_iff_ne_zero.mp hprodpos, Nat.pos_iff_ne_zero.mp hposNc⟩)]
  rw [if_neg (by omega : ¬ a < 0), if_neg (by omega : ¬ b < 0), if_neg (by omega : ¬ c < 0)]
  rw [flDiv_trunc_eq_div (a.natAbs * b.natAbs) c.natAbs hprodpos hposNc hbound2]
  rw [one_mul, one_mul, one_mul]
  rw [Int.natCast_div, Nat.cast_mul, haN, hbN, hcN]

/-! ## Claim theorems: dimension resolution -/

/-- C9 (counterexample): the program does not always floor-round.  At
`origW = 2`, `origH = 3`, `reqW = 2^52 + 1`, the product `3 * (2^52 + 1)`
is odd and above `2^53`, so `float64` multiplication rounds it up (ties to
even) before the division, and the program returns height
6755399441055746 instead of `floor(3 * (2^52+1) / 2) = 6755399441055745`. -/
theorem resolveTargetSize_not_exact_floor :
    resolveTargetSize 2 3 (2 ^ 52 + 1) 0 = (2 ^ 52 + 1, 6755399441055746) ∧
    (3 * (2 ^ 52 + 1) : Int) / 2 = 6755399441055745 ∧
    ¬ resolveTargetSize 2 3 (2 ^ 52 + 1) 0
        = ((2 ^ 52 + 1 : Int), (3 * (2 ^ 52 + 1) : Int) / 2) := by
  refine ⟨by decide, by decide, ?_⟩
  intro h
  have h1 : (6755399441055746 : Int) = (3 * (2 ^ 52 + 1) : Int) / 2 := by
    have h2 := (by decide : resolveTargetSize 2 3 (2 ^ 52 + 1) 0
      = ((2 ^ 52 + 1 : Int), 6755399441055746))
    rw [h2] at h
    exact congrArg Prod.snd h
  rw [(by decide : (3 * (2 ^ 52 + 1) : Int) / 2 = 6755399441055745)] at h1
  exact absurd h1 (by decide)

/-- C9 (amended): `ResolveTargetSize` follows the precedence rules: a sole
positive requested width gives
`(reqWidth, floor(origHeight * reqWidth / origWidth))` whenever
`origHeight * reqWidth + origWidth ≤ 2^53`, the range on which the float64
computation is exact (beyond it the double rounding can exceed the floor);
two zero requests pass the original size through unconditionally, and the
spec's two concrete scenarios hold. -/
theorem resolveTargetSize_precedence_floor :
    (∀ origW origH reqW : Int, 0 < origW → 0 < origH → 0 < reqW →
      origH * reqW + origW ≤ 2 ^ 53 →
      resolveTargetSize origW origH reqW 0 =
        (reqW, ⌊(((origH * reqW : Int) : ℚ) / ((origW : Int) : ℚ))⌋)) ∧
    (∀ origW origH : Int, resolveTargetSize origW origH 0 0 = (origW, origH)) ∧
    resolveTargetSize 200 100 100 0 = (100, 50) ∧
    resolveTargetSize 200 100 0 0 = (200, 100) := by
  refine ⟨?_, ?_, by decide, by decide⟩
  · intro origW origH reqW hW hH hrW hbound
    unfold resolveTargetSize
    rw [if_pos ⟨hrW, rfl⟩]
    rw [goScale_eq_div origH reqW origW hH hrW hW hbound]
    have hfl : ⌊(((origH * reqW : Int) : ℚ) / ((origW : Int) : ℚ))⌋ =
        (origH * reqW) / origW := by
      have hWn : ((origW.toNat : ℕ) : ℤ) = origW := Int.toNat_of_nonneg (le_of_lt hW)
      rw [← hWn, Int.cast_natCast]
      exact Rat.floor_intCast_div_natCast (origH * reqW) origW.toNat
    rw [hfl]
  · intro origW origH
    unfold resolveTargetSize
    rw [if_neg (by simp), if_neg (by simp), if_pos ⟨rfl, rfl⟩]

/-- Witness for C9 (amended): the aspect-ratio rule applied at the
concrete scenario `(200, 100, 100, 0)`, which is inside the exact range. -/
theorem resolveTargetSize_precedence_floor_witness :
    resolveTargetSize 200 100 100 0 = (100, ⌊(((100 * 100 : Int) : ℚ) / ((200 : Int) : ℚ))⌋) :=
  resolveTargetSize_precedence_floor.1 200 100 100 (by decide) (by decide) (by decide)
    (by decide)

/-- C3 (counterexample): with positive original dimensions `(200, 1)` and
request `(100, 0)`, the resolved height `int(1 * 100 / 200.0) = 0` is not
strictly positive, refuting the claim for all requested values. -/
theorem resolveTargetSize_not_always_positive :
    (0 : Int) < 200 ∧ (0 : Int) < 1 ∧
    ¬ (0 < (resolveTargetSize 200 1 100 0).1 ∧ 0 < (resolveTargetSize 200 1 100 0).2) := by
  decide

/-- C3 (amended): for positive original dimensions and nonnegative
requests, both resolved components are strictly positive provided that a
sole positive request neither makes the aspect-scaled dimension truncate
to zero (`origW ≤ origH * reqW`, resp. `origH ≤ origW * reqH`) nor leaves
the float64-exact range (`origH * reqW + origW ≤ 2^53`, resp.
symmetrically). -/
theorem resolveTargetSize_pos (origW origH reqW reqH : Int)
    (hW : 0 < origW) (hH : 0 < origH) (hrW : 0 ≤ reqW) (hrH : 0 ≤ reqH)
    (hscaleH : 0 < reqW → reqH = 0 → origW ≤ origH * reqW)
    (hscaleW : 0 < reqH → reqW = 0 → origH ≤ origW * reqH)
    (hexactH : 0 < reqW → reqH = 0 → origH * reqW + origW ≤ 2 ^ 53)
    (hexactW : 0 < reqH → reqW = 0 → origW * reqH + origH ≤ 2 ^ 53) :
    0 < (resolveTargetSize origW origH reqW reqH).1 ∧
    0 < (resolveTargetSize origW origH reqW reqH).2 := by
  unfold resolveTargetSize
  by_cases h1 : reqW > 0 ∧ reqH = 0
  · rw [if_pos h1]
    refine ⟨h1.1, ?_⟩
    rw [goScale_eq_div origH reqW origW hH h1.1 hW (hexactH h1.1 h1.2)]
    have hsc := hscaleH h1.1 h1.2
    have h2 : (1 : ℤ) ≤ (origH * reqW) / origW := by
      rw [Int.le_ediv_iff_mul_le hW]
      omega
    omega
  · rw [if_neg h1]
    by_cases h2 : reqH > 0 ∧ reqW = 0
    · rw [if_pos h2]
      refine ⟨?_, h2.1⟩
      rw [goScale_eq_div origW reqH origH hW h2.1 hH (hexactW h2.1 h2.2)]
      have hsc := hscaleW h2.1 h2.2
      have h3 : (1 : ℤ) ≤ (origW * reqH) / origH := by
        rw [Int.le_ediv_iff_mul_le hH]
        omega
      omega
    · rw [if_neg h2]
      by_cases h3 : reqW = 0 ∧ reqH = 0
      · rw [if_pos h3]
        exact ⟨hW, hH⟩
      · rw [if_neg h3]
        push_neg at h1 h2 h3
        rcases eq_or_lt_of_le hrW with hW0 | hWpos
        · exfalso
          have hH0 : reqH ≠ 0 := h3 hW0.symm
          have hW0n : reqW ≠ 0 := h2 (by omega)
          omega
        · have hH0 : reqH ≠ 0 := h1 hWpos
          refine ⟨hWpos, ?_⟩
          show 0 < reqH
          omega

/-- Witness for C3 (amended) at `(200, 100, 100, 0)`: both resolved
components are positive. -/
theorem resolveTargetSize_pos_witness :
    0 < (resolveTargetSize 200 100 100 0).1 ∧ 0 < (resolveTargetSize 200 100 100 0).2 :=
  resolveTargetSize_pos 200 100 100 0 (by decide) (by decide) (by decide) (by decide)
    (fun _ _ => by decide) (fun h _ => absurd h (by decide))
    (fun _ _ => by decide) (fun h _ => absurd h (by decide))

/-! ## Claim theorems: background removal (frame and bounds) -/

/-- C6: `RemoveBackground` never changes the image dimensions. -/
theorem removeBackground_preserves_bounds (img : Image) :
    (makeBackgroundTransparent img).width = img.width ∧
    (makeBackgroundTransparent img).height = img.height :=
  ⟨rfl, rfl⟩

/-- C7: in the output of `RemoveBackground`, every pixel classified as
background is fully transparent `(0,0,0,0)`, and every pixel not classified
as background is copied unchanged from the input. -/
theorem removeBackground_pixels (img : Image) (x y : Nat)
    (hx : x < img.width) (hy : y < img.height) :
    ((x, y) ∈ bgMask img → (makeBackgroundTransparent img).pix x y = ⟨0, 0, 0, 0⟩) ∧
    ((x, y) ∉ bgMask img → (makeBackgroundTransparent img).pix x y = img.pix x y) := by
  constructor
  · intro hm
    simp only [makeBackgroundTransparent]
    rw [if_pos hm]
  · intro hm
    simp only [makeBackgroundTransparent]
    rw [if_neg hm]
    exact IAt_eq_pix img hx hy

/-- Witness for C7 at the ring scenario: pixel (4,4) — the enclosed white
patch — is in bounds and the conclusion holds there. -/
theorem removeBackground_pixels_witness :
    (4 < ringImg.width ∧ 4 < ringImg.height) ∧
    (((4, 4) ∈ bgMask ringImg → (makeBackgroundTransparent ringImg).pix 4 4 = ⟨0, 0, 0, 0⟩) ∧
     ((4, 4) ∉ bgMask ringImg → (makeBackgroundTransparent ringImg).pix 4 4 = ringImg.pix 4 4)) :=
  ⟨⟨by decide, by decide⟩, removeBackground_pixels ringImg 4 4 (by decide) (by decide)⟩

/-! ## Claim theorem: trim to the minimal bounding box -/

theorem colorsEqual_false_iff (c1 c2 : Color) : colorsEqual c1 c2 = false ↔ c1 ≠ c2 := by
  rw [Bool.eq_false_iff]
  constructor
  · intro h he
    exact h ((colorsEqual_iff c1 c2).mpr he)
  · intro h he
    exact h ((colorsEqual_iff c1 c2).mp he)

/-- C5: for an image with a fully opaque top-left reference color, a
uniform border (thickness ≥ 1) of that color, and all differing pixels
contained in the box `[x0, x1] × [y0, y1]` with every box edge attained,
`Trim` returns exactly that minimal bounding box: dimensions
`(x1+1-x0) × (y1+1-y0)` and pixels copied from it. -/
theorem trim_minimal_bounding_box (img : Image) (x0 x1 y0 y1 : Nat)
    (hsolid : (img.pix 0 0).a = 65535)
    (hborder : ∀ x, x < img.width → ∀ y, y < img.height →
      (x = 0 ∨ x = img.width - 1 ∨ y = 0 ∨ y = img.height - 1) → img.pix x y = img.pix 0 0)
    (hbox : ∀ x, x < img.width → ∀ y, y < img.height →
      img.pix x y ≠ img.pix 0 0 → x0 ≤ x ∧ x ≤ x1 ∧ y0 ≤ y ∧ y ≤ y1)
    (hx0 : ∃ y, y < img.height ∧ x0 < img.width ∧ img.pix x0 y ≠ img.pix 0 0)
    (hx1 : ∃ y, y < img.height ∧ x1 < img.width ∧ img.pix x1 y ≠ img.pix 0 0)
    (hy0 : ∃ x, x < img.width ∧ y0 < img.height ∧ img.pix x y0 ≠ img.pix 0 0)
    (hy1 : ∃ x, x < img.width ∧ y1 < img.height ∧ img.pix x y1 ≠ img.pix 0 0) :
    (trimImage img).width = x1 + 1 - x0 ∧ (trimImage img).height = y1 + 1 - y0 ∧
    ∀ dx dy, dx < x1 + 1 - x0 → dy < y1 + 1 - y0 →
      (trimImage img).pix dx dy = img.pix (x0 + dx) (y0 + dy) := by
  obtain ⟨ya, hya, hx0w, hpa⟩ := hx0
  obtain ⟨yb, hyb, hx1w, hpb⟩ := hx1
  obtain ⟨xa, hxa, hy0h, hpc⟩ := hy0
  obtain ⟨xb, hxb, hy1h, hpd⟩ := hy1
  have hw : 0 < img.width := by omega
  have hh : 0 < img.height := by omega
  have hattl : img.At 0 0 = img.pix 0 0 := IAt_eq_pix img hw hh
  have htr : ¬ (img.At 0 0).a < 65535 := by
    rw [hattl, hsolid]
    omega
  have hst : ∀ x y, trimShouldTrim img x y = colorsEqual (img.At x y) (img.At 0 0) := by
    intro x y
    simp only [trimShouldTrim]
    rw [if_neg htr]
  have hstf : ∀ x, x < img.width → ∀ y, y < img.height →
      (trimShouldTrim img x y = false ↔ img.pix x y ≠ img.pix 0 0) := by
    intro x hx y hy
    rw [hst, IAt_eq_pix img hx hy, hattl]
    exact colorsEqual_false_iff _ _
  -- box geometry facts
  have hba := hbox x0 hx0w ya hya hpa
  have hbb := hbox x1 hx1w yb hyb hpb
  have hbc := hbox xa hxa y0 hy0h hpc
  have hbd := hbox xb hxb y1 hy1h hpd
  have hx0x1 : x0 ≤ x1 := hba.2.1
  have hy0y1 : y0 ≤ y1 := le_trans hba.2.2.1 hba.2.2.2
  have hx0pos : 0 < x0 := by
    rcases Nat.eq_zero_or_pos x0 with h0 | h0
    · exact absurd (hborder x0 hx0w ya hya (Or.inl h0)) hpa
    · exact h0
  -- row scans
  have hrow : ∀ y, y < img.height → (trimRowHas img (trimShouldTrim img) y = true ↔
      ∃ x, x < img.width ∧ img.pix x y ≠ img.pix 0 0) := by
    intro y hy
    unfold trimRowHas
    rw [List.any_eq_true]
    constructor
    · rintro ⟨x, hxm, hxs⟩
      rw [List.mem_range] at hxm
      rw [Bool.not_eq_true'] at hxs
      exact ⟨x, hxm, (hstf x hxm y hy).mp hxs⟩
    · rintro ⟨x, hxm, hxs⟩
      refine ⟨x, List.mem_range.mpr hxm, ?_⟩
      rw [Bool.not_eq_true']
      exact (hstf x hxm y hy).mpr hxs
  have htop : trimTop img (trimShouldTrim img) = y0 := by
    unfold trimTop
    have hsome : firstHit (trimRowHas img (trimShouldTrim img)) 0 img.height = some y0 := by
      rw [firstHit_eq_some]
      refine ⟨by omega, by omega, (hrow y0 hy0h).mpr ⟨xa, hxa, hpc⟩, ?_⟩
      intro i h1 h2
      rw [Bool.eq_false_iff]
      intro hcont
      obtain ⟨x, hx, hpix⟩ := (hrow i (by omega)).mp hcont
      have := hbox x hx i (by omega) hpix
      omega
    rw [hsome]
    rfl
  have hbot : trimBottom img (trimShouldTrim img) = y1 + 1 := by
    unfold trimBottom
    rw [htop]
    have hsome : lastHit (trimRowHas img (trimShouldTrim img)) y0 (img.height - y0)
        = some y1 := by
      rw [lastHit_eq_some]
      refine ⟨hy0y1, by omega, (hrow y1 hy1h).mpr ⟨xb, hxb, hpd⟩, ?_⟩
      intro i h1 h2
      rw [Bool.eq_false_iff]
      intro hcont
      obtain ⟨x, hx, hpix⟩ := (hrow i (by omega)).mp hcont
      have := hbox x hx i (by omega) hpix
      omega
    rw [hsome]
  -- column scans over rows [y0, y1+1)
  have hcol : ∀ x, x < img.width →
      (trimColHas (trimShouldTrim img) y0 (y1 + 1) x = true ↔
        ∃ y, y0 ≤ y ∧ y ≤ y1 ∧ img.pix x y ≠ img.pix 0 0) := by
    intro x hx
    unfold trimColHas
    rw [List.any_eq_true]
    constructor
    · rintro ⟨y, hym, hys⟩
      rw [List.mem_range'_1] at hym
      have hyh : y < img.height := by omega
      rw [Bool.not_eq_true'] at hys
      exact ⟨y, hym.1, by omega, (hstf x hx y hyh).mp hys⟩
    · rintro ⟨y, hyge, hyle, hys⟩
      refine ⟨y, ?_, ?_⟩
      · rw [List.mem_range'_1]
        omega
      · rw [Bool.not_eq_true']
        exact (hstf x hx y (by omega)).mpr hys
  have hleft : trimLeft img (trimShouldTrim img) = x0 := by
    unfold trimLeft
    rw [htop, hbot]
    have hsome : firstHit (trimColHas (trimShouldTrim img) y0 (y1 + 1)) 0 img.width
        = some x0 := by
      rw [firstHit_eq_some]
      refine ⟨by omega, by omega, (hcol x0 hx0w).mpr ⟨ya, hba.2.2.1, hba.2.2.2, hpa⟩, ?_⟩
      intro i h1 h2
      rw [Bool.eq_false_iff]
      intro hcont
      obtain ⟨y, hyge, hyle, hpix⟩ := (hcol i (by omega)).mp hcont
      have := hbox i (by omega) y (by omega) hpix
      omega
    rw [hsome]
    rfl
  have hright : trimRight img (trimShouldTrim img) = x1 + 1 := by
    unfold trimRight
    rw [htop, hbot, hleft]
    have hsome : lastHit (trimColHas (trimShouldTrim img) y0 (y1 + 1)) x0 (img.width - x0)
        = some x1 := by
      rw [lastHit_eq_some]
      refine ⟨hx0x1, by omega, (hcol x1 hx1w).mpr ⟨yb, hbb.2.2.1, hbb.2.2.2, hpb⟩, ?_⟩
      intro i h1 h2
      rw [Bool.eq_false_iff]
      intro hcont
      obtain ⟨y, hyge, hyle, hpix⟩ := (hcol i (by omega)).mp hcont
      have := hbox i (by omega) y (by omega) hpix
      omega
    rw [hsome]
  unfold trimImage
  simp only [trimCore]
  rw [htop, hbot, hleft, hright]
  rw [if_neg (by rintro ⟨hc, -⟩; omega)]
  refine ⟨rfl, rfl, ?_⟩
  intro dx dy hdx hdy
  show img.At (x0 + dx) (y0 + dy) = img.pix (x0 + dx) (y0 + dy)
  exact IAt_eq_pix img (by omega) (by omega)

/-- Witness for C5: the spec's single-pixel scenario — a 10×10 white image
with one red pixel at (5,5) trims to exactly 1×1. -/
theorem trim_minimal_bounding_box_witness :
    (trimImage singleRed).width = 1 ∧ (trimImage singleRed).height = 1 :=
  have h := trim_minimal_bounding_box singleRed 5 5 5 5 (by decide)
    (by decide) (by decide)
    ⟨5, by decide, by decide, by decide⟩ ⟨5, by decide, by decide, by decide⟩
    ⟨5, by decide, by decide, by decide⟩ ⟨5, by decide, by decide, by decide⟩
  ⟨h.1, h.2.1⟩

/-! ## Background flood fill: grid and single neighbor-step lemmas -/

theorem mem_gridCells {img : Image} {p : Nat × Nat} :
    p ∈ gridCells img ↔ p.1 < img.width ∧ p.2 < img.height := by
  unfold gridCells
  rw [Finset.mem_product, Finset.mem_range, Finset.mem_range]

theorem gridCells_card (img : Image) : (gridCells img).card = img.width * img.height := by
  unfold gridCells
  rw [Finset.card_product, Finset.card_range, Finset.card_range]

theorem neighborStep_mask_mono (img : Image) (bg : Color) (p : Nat × Nat)
    (acc : List (Nat × Nat) × Finset (Nat × Nat)) (d : Int × Int) :
    acc.2 ⊆ (neighborStep img bg p acc d).2 := by
  simp only [neighborStep]
  split_ifs
  · exact Finset.subset_insert _ _
  · exact Finset.Subset.refl _

theorem neighborStep_queue_ext (img : Image) (bg : Color) (p : Nat × Nat)
    (acc : List (Nat × Nat) × Finset (Nat × Nat)) (d : Int × Int) :
    ∃ t, (neighborStep img bg p acc d).1 = acc.1 ++ t := by
  simp only [neighborStep]
  split_ifs
  · exact ⟨[((((p.1 : Int) + d.1)).toNat, (((p.2 : Int) + d.2)).toNat)], rfl⟩
  · exact ⟨[], (List.append_nil _).symm⟩

theorem neighborStep_queue_sub (img : Image) (bg : Color) (p : Nat × Nat)
    (acc : List (Nat × Nat) × Finset (Nat × Nat)) (d : Int × Int)
    (hqs : ∀ x ∈ acc.1, x ∈ acc.2) :
    ∀ x ∈ (neighborStep img bg p acc d).1, x ∈ (neighborStep img bg p acc d).2 := by
  simp only [neighborStep]
  split_ifs
  · intro x hx
    rcases List.mem_append.mp hx with hx2 | hx2
    · exact Finset.mem_insert_of_mem (hqs x hx2)
    · rw [List.mem_singleton] at hx2
      rw [hx2]
      exact Finset.mem_insert_self _ _
  · exact hqs

theorem neighborStep_grid (img : Image) (bg : Color) (p : Nat × Nat)
    (acc : List (Nat × Nat) × Finset (Nat × Nat)) (d : Int × Int)
    (hg : acc.2 ⊆ gridCells img) :
    (neighborStep img bg p acc d).2 ⊆ gridCells img := by
  simp only [neighborStep]
  split_ifs with hcond
  · intro x hx
    rcases Finset.mem_insert.mp hx with hx2 | hx2
    · obtain ⟨h1, h2, h3, h4, -, -⟩ := hcond
      rw [hx2, mem_gridCells]
      constructor
      · show ((p.1 : Int) + d.1).toNat < img.width
        omega
      · show ((p.2 : Int) + d.2).toNat < img.height
        omega
    · exact hg hx2
  · exact hg

theorem neighborStep_count (img : Image) (bg : Color) (p : Nat × Nat)
    (acc : List (Nat × Nat) × Finset (Nat × Nat)) (d : Int × Int) :
    (neighborStep img bg p acc d).1.length + acc.2.card
      = acc.1.length + (neighborStep img bg p acc d).2.card := by
  simp only [neighborStep]
  split_ifs with hcond
  · obtain ⟨-, -, -, -, hnm, -⟩ := hcond
    show (acc.1 ++ [_]).length + acc.2.card = acc.1.length + (insert _ acc.2).card
    rw [List.length_append, Finset.card_insert_of_not_mem hnm, List.length_singleton]
    omega
  · rfl

theorem neighborStep_new (img : Image) (bg : Color) (p : Nat × Nat)
    (acc : List (Nat × Nat) × Finset (Nat × Nat)) (d : Int × Int) :
    ∀ x ∈ (neighborStep img bg p acc d).2, x ∈ acc.2 ∨ x ∈ (neighborStep img bg p acc d).1 := by
  simp only [neighborStep]
  split_ifs
  · intro x hx
    rcases Finset.mem_insert.mp hx with hx2 | hx2
    · right
      rw [hx2]
      exact List.mem_append_right _ (List.mem_singleton_self _)
    · exact Or.inl hx2
  · exact fun x hx => Or.inl hx

theorem toNat_pair_adjacent {p : Nat × Nat} {dx dy : Int}
    (hd : (dx, dy) ∈ dirs) (h1 : 0 ≤ (p.1 : Int) + dx) (h2 : 0 ≤ (p.2 : Int) + dy) :
    adjacent p (((p.1 : Int) + dx).toNat, ((p.2 : Int) + dy).toNat) := by
  have hd4 : (dx = 0 ∧ dy = 1) ∨ (dx = 0 ∧ dy = -1) ∨ (dx = 1 ∧ dy = 0) ∨
      (dx = -1 ∧ dy = 0) := by
    simp only [dirs, List.mem_cons, List.not_mem_nil, or_false, Prod.mk.injEq] at hd
    exact hd
  unfold adjacent
  rcases hd4 with ⟨h5, h6⟩ | ⟨h5, h6⟩ | ⟨h5, h6⟩ | ⟨h5, h6⟩ <;> subst h5 <;> subst h6
  · left
    constructor
    · show p.1 = ((p.1 : Int) + 0).toNat
      omega
    · left
      show p.2 + 1 = ((p.2 : Int) + 1).toNat
      omega
  · left
    constructor
    · show p.1 = ((p.1 : Int) + 0).toNat
      omega
    · right
      show ((p.2 : Int) + (-1)).toNat + 1 = p.2
      omega
  · right
    constructor
    · show p.2 = ((p.2 : Int) + 0).toNat
      omega
    · left
      show p.1 + 1 = ((p.1 : Int) + 1).toNat
      omega
  · right
    constructor
    · show p.2 = ((p.2 : Int) + 0).toNat
      omega
    · right
      show ((p.1 : Int) + (-1)).toNat + 1 = p.1
      omega

theorem neighborStep_sound (img : Image) (bg : Color) (p : Nat × Nat)
    (acc : List (Nat × Nat) × Finset (Nat × Nat)) (d : Int × Int)
    (hbg : bg = img.At 0 0) (hd : d ∈ dirs) :
    ∀ x ∈ (neighborStep img bg p acc d).2,
      x ∈ acc.2 ∨ (adjacent p x ∧ bgCell img x) := by
  simp only [neighborStep]
  split_ifs with hcond
  · intro x hx
    rcases Finset.mem_insert.mp hx with hx2 | hx2
    · right
      obtain ⟨h1, h2, h3, h4, -, hce⟩ := hcond
      rw [hx2]
      constructor
      · exact toNat_pair_adjacent hd h1 h3
      · refine ⟨?_, ?_, ?_⟩
        · show ((p.1 : Int) + d.1).toNat < img.width
          omega
        · show ((p.2 : Int) + d.2).toNat < img.height
          omega
        · show img.At ((p.1 : Int) + d.1).toNat ((p.2 : Int) + d.2).toNat = img.At 0 0
          rw [← hbg]
          exact (colorsEqual_iff _ _).mp hce
    · exact Or.inl hx2
  · exact fun x hx => Or.inl hx

theorem neighborStep_covers (img : Image) (bg : Color) (p : Nat × Nat)
    (acc : List (Nat × Nat) × Finset (Nat × Nat)) (d : Int × Int)
    (hbg : bg = img.At 0 0) {q : Nat × Nat} (hq : bgCell img q)
    (h1 : 0 ≤ (p.1 : Int) + d.1) (h2 : 0 ≤ (p.2 : Int) + d.2)
    (heq : q = (((p.1 : Int) + d.1).toNat, ((p.2 : Int) + d.2).toNat)) :
    q ∈ (neighborStep img bg p acc d).2 := by
  by_cases hmem : q ∈ acc.2
  · exact neighborStep_mask_mono img bg p acc d hmem
  · have e1 : q.1 = ((p.1 : Int) + d.1).toNat := by rw [heq]
    have e2 : q.2 = ((p.2 : Int) + d.2).toNat := by rw [heq]
    obtain ⟨hq1, hq2, hq3⟩ := hq
    rw [e1] at hq1
    rw [e2] at hq2
    have hmem2 : ((((p.1 : Int) + d.1)).toNat, (((p.2 : Int) + d.2)).toNat) ∉ acc.2 := by
      rw [← heq]
      exact hmem
    have hce : colorsEqual (img.At ((p.1 : Int) + d.1).toNat ((p.2 : Int) + d.2).toNat) bg
        = true := by
      rw [← e1, ← e2]
      exact (colorsEqual_iff _ _).mpr (by rw [hq3, hbg])
    simp only [neighborStep]
    rw [if_pos ⟨h1, by omega, h2, by omega, hmem2, hce⟩]
    rw [heq]
    exact Finset.mem_insert_self _ _

/-! ## Background flood fill: folded neighbor-loop lemmas -/

theorem foldNS_mono (img : Image) (bg : Color) (p : Nat × Nat) :
    ∀ (l : List (Int × Int)) (acc : List (Nat × Nat) × Finset (Nat × Nat)),
      acc.2 ⊆ (l.foldl (neighborStep img bg p) acc).2 := by
  intro l
  induction l with
  | nil => intro acc; exact Finset.Subset.refl _
  | cons d l ih =>
    intro acc
    exact (neighborStep_mask_mono img bg p acc d).trans (ih _)

theorem foldNS_queue_ext (img : Image) (bg : Color) (p : Nat × Nat) :
    ∀ (l : List (Int × Int)) (acc : List (Nat × Nat) × Finset (Nat × Nat)),
      ∃ t, (l.foldl (neighborStep img bg p) acc).1 = acc.1 ++ t := by
  intro l
  induction l with
  | nil => intro acc; exact ⟨[], (List.append_nil _).symm⟩
  | cons d l ih =>
    intro acc
    obtain ⟨t1, ht1⟩ := neighborStep_queue_ext img bg p acc d
    obtain ⟨t2, ht2⟩ := ih (neighborStep img bg p acc d)
    exact ⟨t1 ++ t2, by rw [List.foldl_cons, ht2, ht1, List.append_assoc]⟩

theorem foldNS_queue_sub (img : Image) (bg : Color) (p : Nat × Nat) :
    ∀ (l : List (Int × Int)) (acc : List (Nat × Nat) × Finset (Nat × Nat)),
      (∀ x ∈ acc.1, x ∈ acc.2) →
      ∀ x ∈ (l.foldl (neighborStep img bg p) acc).1,
        x ∈ (l.foldl (neighborStep img bg p) acc).2 := by
  intro l
  induction l with
  | nil => intro acc h; exact h
  | cons d l ih =>
    intro acc h
    exact ih _ (neighborStep_queue_sub img bg p acc d h)

theorem foldNS_grid (img : Image) (bg : Color) (p : Nat × Nat) :
    ∀ (l : List (Int × Int)) (acc : List (Nat × Nat) × Finset (Nat × Nat)),
      acc.2 ⊆ gridCells img →
      (l.foldl (neighborStep img bg p) acc).2 ⊆ gridCells img := by
  intro l
  induction l with
  | nil => intro acc h; exact h
  | cons d l ih =>
    intro acc h
    exact ih _ (neighborStep_grid img bg p acc d h)

theorem foldNS_count (img : Image) (bg : Color) (p : Nat × Nat) :
    ∀ (l : List (Int × Int)) (acc : List (Nat × Nat) × Finset (Nat × Nat)),
      (l.foldl (neighborStep img bg p) acc).1.length + acc.2.card
        = acc.1.length + (l.foldl (neighborStep img bg p) acc).2.card := by
  intro l
  induction l with
  | nil => intro acc; rfl
  | cons d l ih =>
    intro acc
    have h1 := neighborStep_count img bg p acc d
    have h2 := ih (neighborStep img bg p acc d)
    rw [List.foldl_cons]
    omega

theorem foldNS_new (img : Image) (bg : Color) (p : Nat × Nat) :
    ∀ (l : List (Int × Int)) (acc : List (Nat × Nat) × Finset (Nat × Nat)),
      ∀ x ∈ (l.foldl (neighborStep img bg p) acc).2,
        x ∈ acc.2 ∨ x ∈ (l.foldl (neighborStep img bg p) acc).1 := by
  intro l
  induction l with
  | nil => intro acc x hx; exact Or.inl hx
  | cons d l ih =>
    intro acc x hx
    rw [List.foldl_cons] at hx
    rcases ih (neighborStep img bg p acc d) x hx with hx2 | hx2
    · rcases neighborStep_new img bg p acc d x hx2 with hx3 | hx3
      · exact Or.inl hx3
      · right
        obtain ⟨t, ht⟩ := foldNS_queue_ext img bg p l (neighborStep img bg p acc d)
        rw [List.foldl_cons, ht]
        exact List.mem_append_left t hx3
    · right
      rw [List.foldl_cons]
      exact hx2

theorem foldNS_sound (img : Image) (bg : Color) (p : Nat × Nat)
    (hbg : bg = img.At 0 0) :
    ∀ (l : List (Int × Int)), (∀ d ∈ l, d ∈ dirs) →
      ∀ (acc : List (Nat × Nat) × Finset (Nat × Nat)),
      ∀ x ∈ (l.foldl (neighborStep img bg p) acc).2,
        x ∈ acc.2 ∨ (adjacent p x ∧ bgCell img x) := by
  intro l
  induction l with
  | nil => intro _ acc x hx; exact Or.inl hx
  | cons d l ih =>
    intro hl acc x hx
    rw [List.foldl_cons] at hx
    rcases ih (fun e he => hl e (List.mem_cons_of_mem d he)) (neighborStep img bg p acc d) x hx
        with hx2 | hx2
    · exact neighborStep_sound img bg p acc d hbg (hl d (List.mem_cons_self d l)) x hx2
    · exact Or.inr hx2

theorem foldDirs_covers (img : Image) (bg : Color) (p : Nat × Nat)
    (acc : List (Nat × Nat) × Finset (Nat × Nat)) (hbg : bg = img.At 0 0)
    {q : Nat × Nat} (hadj : adjacent p q) (hq : bgCell img q) :
    q ∈ (dirs.foldl (neighborStep img bg p) acc).2 := by
  have hq1 := hq.1
  have hq2 := hq.2.1
  simp only [dirs, List.foldl_cons, List.foldl_nil]
  rcases hadj with ⟨hx, hy | hy⟩ | ⟨hy, hx | hx⟩
  · -- q is directly below p: direction (0, 1)
    refine neighborStep_mask_mono img bg p _ (-1, 0)
      (neighborStep_mask_mono img bg p _ (1, 0)
        (neighborStep_mask_mono img bg p _ (0, -1)
          (neighborStep_covers img bg p acc (0, 1) hbg hq (by omega) (by omega) ?_)))
    have e1 : q.1 = ((p.1 : Int) + (0 : Int)).toNat := by omega
    have e2 : q.2 = ((p.2 : Int) + (1 : Int)).toNat := by omega
    exact Prod.ext e1 e2
  · -- q is directly above p: direction (0, -1)
    refine neighborStep_mask_mono img bg p _ (-1, 0)
      (neighborStep_mask_mono img bg p _ (1, 0)
        (neighborStep_covers img bg p _ (0, -1) hbg hq (by omega) (by omega) ?_))
    have e1 : q.1 = ((p.1 : Int) + (0 : Int)).toNat := by omega
    have e2 : q.2 = ((p.2 : Int) + (-1 : Int)).toNat := by omega
    exact Prod.ext e1 e2
  · -- q is directly right of p: direction (1, 0)
    refine neighborStep_mask_mono img bg p _ (-1, 0)
      (neighborStep_covers img bg p _ (1, 0) hbg hq (by omega) (by omega) ?_)
    have e1 : q.1 = ((p.1 : Int) + (1 : Int)).toNat := by omega
    have e2 : q.2 = ((p.2 : Int) + (0 : Int)).toNat := by omega
    exact Prod.ext e1 e2
  · -- q is directly left of p: direction (-1, 0)
    refine neighborStep_covers img bg p _ (-1, 0) hbg hq (by omega) (by omega) ?_
    have e1 : q.1 = ((p.1 : Int) + (-1 : Int)).toNat := by omega
    have e2 : q.2 = ((p.2 : Int) + (0 : Int)).toNat := by omega
    exact Prod.ext e1 e2

/-! ## Background flood fill: BFS loop lemmas -/

theorem floodFill_mono (img : Image) (bg : Color) :
    ∀ (fuel : Nat) (queue : List (Nat × Nat)) (mask : Finset (Nat × Nat)),
      mask ⊆ floodFill img bg fuel queue mask := by
  intro fuel
  induction fuel with
  | zero => intro queue mask; exact Finset.Subset.refl _
  | succ fuel ih =>
    intro queue mask
    cases queue with
    | nil => exact Finset.Subset.refl _
    | cons p rest =>
      rw [floodFill]
      exact (foldNS_mono img bg p dirs (rest, mask)).trans (ih _ _)

theorem floodFill_sound (img : Image) (bg : Color) (hbg : bg = img.At 0 0) :
    ∀ (fuel : Nat) (queue : List (Nat × Nat)) (mask : Finset (Nat × Nat)),
      (∀ x ∈ queue, x ∈ mask) → (∀ x ∈ mask, reachableBg img x) →
      ∀ x ∈ floodFill img bg fuel queue mask, reachableBg img x := by
  intro fuel
  induction fuel with
  | zero => intro queue mask _ hmr; exact hmr
  | succ fuel ih =>
    intro queue mask hqm hmr
    cases queue with
    | nil => exact hmr
    | cons p rest =>
      rw [floodFill]
      apply ih
      · exact foldNS_queue_sub img bg p dirs (rest, mask)
          (fun x hx => hqm x (List.mem_cons_of_mem p hx))
      · intro x hx
        rcases foldNS_sound img bg p hbg dirs (fun d hd => hd) (rest, mask) x hx
            with hx2 | ⟨hadj, hcell⟩
        · exact hmr x hx2
        · obtain ⟨b, hb, hbc, hpath⟩ := hmr p (hqm p (List.mem_cons_self p rest))
          exact ⟨b, hb, hbc, hpath.tail ⟨hadj, hcell⟩⟩

theorem floodFill_closed (img : Image) (bg : Color) (hbg : bg = img.At 0 0) :
    ∀ (fuel : Nat) (queue : List (Nat × Nat)) (mask : Finset (Nat × Nat)),
      (∀ x ∈ queue, x ∈ mask) → mask ⊆ gridCells img →
      queue.length + ((gridCells img).card - mask.card) ≤ fuel →
      (∀ x ∈ mask, x ∈ queue ∨ ∀ q, adjacent x q → bgCell img q → q ∈ mask) →
      ∀ x ∈ floodFill img bg fuel queue mask, ∀ q, adjacent x q → bgCell img q →
        q ∈ floodFill img bg fuel queue mask := by
  intro fuel
  induction fuel with
  | zero =>
    intro queue mask hqm hgrid hfuel hfront x hx q hadj hq
    have hq0 : queue = [] := List.length_eq_zero.mp (by omega)
    subst hq0
    rcases hfront x hx with hxx | hcl
    · exact absurd hxx (List.not_mem_nil x)
    · exact hcl q hadj hq
  | succ fuel ih =>
    intro queue mask hqm hgrid hfuel hfront
    cases queue with
    | nil =>
      intro x hx q hadj hqc
      rcases hfront x hx with hxx | hcl
      · exact absurd hxx (List.not_mem_nil x)
      · exact hcl q hadj hqc
    | cons p rest =>
      rw [floodFill]
      have hrest : ∀ x ∈ rest, x ∈ mask := fun x hx => hqm x (List.mem_cons_of_mem p hx)
      apply ih
      · exact foldNS_queue_sub img bg p dirs (rest, mask) hrest
      · exact foldNS_grid img bg p dirs (rest, mask) hgrid
      · have hcount : (dirs.foldl (neighborStep img bg p) (rest, mask)).1.length + mask.card
            = rest.length + (dirs.foldl (neighborStep img bg p) (rest, mask)).2.card :=
          foldNS_count img bg p dirs (rest, mask)
        have hc1 : mask.card ≤ (dirs.foldl (neighborStep img bg p) (rest, mask)).2.card :=
          Finset.card_le_card (foldNS_mono img bg p dirs (rest, mask))
        have hc2 : (dirs.foldl (neighborStep img bg p) (rest, mask)).2.card
            ≤ (gridCells img).card :=
          Finset.card_le_card (foldNS_grid img bg p dirs (rest, mask) hgrid)
        have hc3 : mask.card ≤ (gridCells img).card := Finset.card_le_card hgrid
        have hlen : rest.length + 1 + ((gridCells img).card - mask.card) ≤ fuel + 1 := hfuel
        omega
      · intro x hx
        rcases foldNS_new img bg p dirs (rest, mask) x hx with hxm | hxq
        · rcases hfront x hxm with hxq2 | hcl
          · rcases List.mem_cons.mp hxq2 with hxp | hxr
            · right
              intro q hadj hqc
              exact foldDirs_covers img bg p (rest, mask) hbg (hxp ▸ hadj) hqc
            · left
              obtain ⟨t, ht⟩ := foldNS_queue_ext img bg p dirs (rest, mask)
              rw [ht]
              exact List.mem_append_left t hxr
          · right
            intro q hadj hqc
            exact foldNS_mono img bg p dirs (rest, mask) (hcl q hadj hqc)
        · exact Or.inl hxq

/-! ## Background flood fill: edge seeding lemmas -/

theorem seedPoint_mono (img : Image) (bg : Color)
    (q : List (Nat × Nat) × Finset (Nat × Nat)) (p : Nat × Nat) :
    q.2 ⊆ (seedPoint img bg q p).2 := by
  simp only [seedPoint]
  split_ifs
  · exact Finset.subset_insert _ _
  · exact Finset.Subset.refl _

theorem seedPoint_covers (img : Image) (bg : Color)
    (q : List (Nat × Nat) × Finset (Nat × Nat)) (p : Nat × Nat)
    (hbg : bg = img.At 0 0) (hp : bgCell img p) :
    p ∈ (seedPoint img bg q p).2 := by
  simp only [seedPoint]
  rw [if_pos ((colorsEqual_iff _ _).mpr (by rw [hp.2.2, hbg]))]
  exact Finset.mem_insert_self _ _

theorem seedPoint_pres (img : Image) (bg : Color)
    (q : List (Nat × Nat) × Finset (Nat × Nat)) (p : Nat × Nat)
    (hbg : bg = img.At 0 0) (hp : borderCell img p)
    (hq : SeedInv img q) : SeedInv img (seedPoint img bg q p) := by
  obtain ⟨h1, h2, h3⟩ := hq
  simp only [seedPoint]
  split_ifs with hce
  · refine ⟨?_, ?_, ?_⟩
    · intro x hx
      rcases List.mem_append.mp hx with hx2 | hx2
      · exact Finset.mem_insert_of_mem (h1 x hx2)
      · rw [List.mem_singleton] at hx2
        rw [hx2]
        exact Finset.mem_insert_self _ _
    · intro x hx
      rcases Finset.mem_insert.mp hx with hx2 | hx2
      · rw [hx2]
        refine ⟨hp, hp.1, hp.2.1, ?_⟩
        show img.At p.1 p.2 = img.At 0 0
        rw [← hbg]
        exact (colorsEqual_iff _ _).mp hce
      · exact h2 x hx2
    · intro x hx
      rcases Finset.mem_insert.mp hx with hx2 | hx2
      · rw [hx2]
        exact List.mem_append_right _ (List.mem_singleton_self _)
      · exact List.mem_append_left _ (h3 x hx2)
  · exact ⟨h1, h2, h3⟩

theorem seedFoldTB_mono (img : Image) (bg : Color) :
    ∀ (l : List Nat) (q0 : List (Nat × Nat) × Finset (Nat × Nat)),
      q0.2 ⊆ (l.foldl
        (fun q x => seedPoint img bg (seedPoint img bg q (x, 0)) (x, img.height - 1)) q0).2 := by
  intro l
  induction l with
  | nil => intro q0; exact Finset.Subset.refl _
  | cons hd tl ih =>
    intro q0
    exact ((seedPoint_mono img bg q0 (hd, 0)).trans
      (seedPoint_mono img bg _ (hd, img.height - 1))).trans (ih _)

theorem seedFoldLR_mono (img : Image) (bg : Color) :
    ∀ (l : List Nat) (q0 : List (Nat × Nat) × Finset (Nat × Nat)),
      q0.2 ⊆ (l.foldl
        (fun q y => seedPoint img bg (seedPoint img bg q (0, y)) (img.width - 1, y)) q0).2 := by
  intro l
  induction l with
  | nil => intro q0; exact Finset.Subset.refl _
  | cons hd tl ih =>
    intro q0
    exact ((seedPoint_mono img bg q0 (0, hd)).trans
      (seedPoint_mono img bg _ (img.width - 1, hd))).trans (ih _)

theorem seedFoldTB_covers (img : Image) (bg : Color) (hbg : bg = img.At 0 0) :
    ∀ (l : List Nat) (q0 : List (Nat × Nat) × Finset (Nat × Nat)) {b : Nat × Nat},
      b.1 ∈ l → (b.2 = 0 ∨ b.2 = img.height - 1) → bgCell img b →
      b ∈ (l.foldl
        (fun q x => seedPoint img bg (seedPoint img bg q (x, 0)) (x, img.height - 1)) q0).2 := by
  intro l
  induction l with
  | nil => intro q0 b hb1 _ _; exact absurd hb1 (List.not_mem_nil _)
  | cons hd tl ih =>
    intro q0 b hb1 hb2 hq
    rw [List.foldl_cons]
    rcases List.mem_cons.mp hb1 with hhd | htl
    · apply seedFoldTB_mono img bg tl _
      rcases hb2 with h0 | hh1
      · have hbeq : b = (hd, (0 : Nat)) := Prod.ext hhd h0
        rw [hbeq]
        exact seedPoint_mono img bg _ _
          (seedPoint_covers img bg q0 (hd, 0) hbg (hbeq ▸ hq))
      · have hbeq : b = (hd, img.height - 1) := Prod.ext hhd hh1
        rw [hbeq]
        exact seedPoint_covers img bg _ (hd, img.height - 1) hbg (hbeq ▸ hq)
    · exact ih _ htl hb2 hq

theorem seedFoldLR_covers (img : Image) (bg : Color) (hbg : bg = img.At 0 0) :
    ∀ (l : List Nat) (q0 : List (Nat × Nat) × Finset (Nat × Nat)) {b : Nat × Nat},
      b.2 ∈ l → (b.1 = 0 ∨ b.1 = img.width - 1) → bgCell img b →
      b ∈ (l.foldl
        (fun q y => seedPoint img bg (seedPoint img bg q (0, y)) (img.width - 1, y)) q0).2 := by
  intro l
  induction l with
  | nil => intro q0 b hb1 _ _; exact absurd hb1 (List.not_mem_nil _)
  | cons hd tl ih =>
    intro q0 b hb1 hb2 hq
    rw [List.foldl_cons]
    rcases List.mem_cons.mp hb1 with hhd | htl
    · apply seedFoldLR_mono img bg tl _
      rcases hb2 with h0 | hw1
      · have hbeq : b = ((0 : Nat), hd) := Prod.ext h0 hhd
        rw [hbeq]
        exact seedPoint_mono img bg _ _
          (seedPoint_covers img bg q0 (0, hd) hbg (hbeq ▸ hq))
      · have hbeq : b = (img.width - 1, hd) := Prod.ext hw1 hhd
        rw [hbeq]
        exact seedPoint_covers img bg _ (img.width - 1, hd) hbg (hbeq ▸ hq)
    · exact ih _ htl hb2 hq

theorem seedEdges_inv (img : Image) (bg : Color) (hbg : bg = img.At 0 0)
    (hw : 0 < img.width) (hh : 0 < img.height) :
    SeedInv img (seedEdges img bg) := by
  simp only [seedEdges]
  have hstart : SeedInv img ([], (∅ : Finset (Nat × Nat))) :=
    ⟨fun x hx => absurd hx (List.not_mem_nil x),
     fun x hx => absurd hx (Finset.not_mem_empty x),
     fun x hx => absurd hx (Finset.not_mem_empty x)⟩
  have h1 : SeedInv img ((List.range img.width).foldl
      (fun q x => seedPoint img bg (seedPoint img bg q (x, 0)) (x, img.height - 1))
      ([], ∅)) := by
    refine List.foldlRecOn _ _ _ hstart ?_
    intro acc hacc x hx
    rw [List.mem_range] at hx
    exact seedPoint_pres img bg _ _ hbg ⟨hx, by omega, Or.inr (Or.inr (Or.inr rfl))⟩
      (seedPoint_pres img bg _ _ hbg ⟨hx, hh, Or.inr (Or.inr (Or.inl rfl))⟩ hacc)
  refine List.foldlRecOn _ _ _ h1 ?_
  intro acc hacc y hy
  rw [List.mem_range] at hy
  exact seedPoint_pres img bg _ _ hbg ⟨by omega, hy, Or.inr (Or.inl rfl)⟩
    (seedPoint_pres img bg _ _ hbg ⟨hw, hy, Or.inl rfl⟩ hacc)

theorem seedEdges_covers (img : Image) (bg : Color) (hbg : bg = img.At 0 0)
    {b : Nat × Nat} (hb : borderCell img b) (hc : bgCell img b) :
    b ∈ (seedEdges img bg).2 := by
  simp only [seedEdges]
  obtain ⟨hbw, hbh, hpos⟩ := hb
  rcases hpos with h | h | h | h
  · exact seedFoldLR_covers img bg hbg (List.range img.height) _
      (List.mem_range.mpr hbh) (Or.inl h) hc
  · exact seedFoldLR_covers img bg hbg (List.range img.height) _
      (List.mem_range.mpr hbh) (Or.inr h) hc
  · exact seedFoldLR_mono img bg (List.range img.height) _
      (seedFoldTB_covers img bg hbg (List.range img.width) _
        (List.mem_range.mpr hbw) (Or.inl h) hc)
  · exact seedFoldLR_mono img bg (List.range img.height) _
      (seedFoldTB_covers img bg hbg (List.range img.width) _
        (List.mem_range.mpr hbw) (Or.inr h) hc)

/-! ## The mask computes exactly edge-reachability -/

theorem bgMask_mem_iff (img : Image) (hw : 0 < img.width) (hh : 0 < img.height)
    (p : Nat × Nat) : p ∈ bgMask img ↔ reachableBg img p := by
  obtain ⟨hs1, hs2, hs3⟩ := seedEdges_inv img (img.At 0 0) rfl hw hh
  have hgrid : (seedEdges img (img.At 0 0)).2 ⊆ gridCells img := by
    intro x hx
    exact mem_gridCells.mpr ⟨(hs2 x hx).1.1, (hs2 x hx).1.2.1⟩
  constructor
  · intro hp
    refine floodFill_sound img (img.At 0 0) rfl _ _ _ hs1 ?_ p hp
    intro x hx
    obtain ⟨hbx, hcx⟩ := hs2 x hx
    exact ⟨x, hbx, hcx, Relation.ReflTransGen.refl⟩
  · rintro ⟨b, hb, hc, hpath⟩
    have hfuel : (seedEdges img (img.At 0 0)).1.length +
        ((gridCells img).card - (seedEdges img (img.At 0 0)).2.card)
        ≤ (seedEdges img (img.At 0 0)).1.length + img.width * img.height := by
      have hg := gridCells_card img
      omega
    have hclosed := floodFill_closed img (img.At 0 0) rfl
      ((seedEdges img (img.At 0 0)).1.length + img.width * img.height)
      (seedEdges img (img.At 0 0)).1 (seedEdges img (img.At 0 0)).2
      hs1 hgrid hfuel (fun x hx => Or.inl (hs3 x hx))
    have hbmem : b ∈ floodFill img (img.At 0 0)
        ((seedEdges img (img.At 0 0)).1.length + img.width * img.height)
        (seedEdges img (img.At 0 0)).1 (seedEdges img (img.At 0 0)).2 :=
      floodFill_mono img (img.At 0 0) _ _ _ (seedEdges_covers img (img.At 0 0) rfl hb hc)
    show p ∈ bgMask img
    simp only [bgMask]
    induction hpath with
    | refl => exact hbmem
    | tail _ hstep ih => exact hclosed _ ih _ hstep.1 hstep.2

/-! ## Claim theorems: background removal semantics -/

/-- C1: `RemoveBackground` marks (and so zeroes the alpha of) exactly those
pixels whose color equals the top-left reference color and that are
reachable from a border pixel through a 4-connected path of pixels of that
color; marked pixels become `(0,0,0,0)` and unmarked ones are copied
unchanged — so an enclosed region matching the background color stays
opaque. -/
theorem removeBackground_zeroes_exactly_edge_reachable (img : Image) (x y : Nat)
    (hx : x < img.width) (hy : y < img.height) :
    ((x, y) ∈ bgMask img ↔ reachableBg img (x, y)) ∧
    ((x, y) ∈ bgMask img → (makeBackgroundTransparent img).pix x y = ⟨0, 0, 0, 0⟩) ∧
    ((x, y) ∉ bgMask img → (makeBackgroundTransparent img).pix x y = img.pix x y) := by
  refine ⟨bgMask_mem_iff img (by omega) (by omega) (x, y), ?_, ?_⟩
  · intro hm
    simp only [makeBackgroundTransparent]
    rw [if_pos hm]
  · intro hm
    simp only [makeBackgroundTransparent]
    rw [if_neg hm]
    exact IAt_eq_pix img hx hy

/-- Witness for C1 at the ring scenario, at the enclosed white patch pixel
(4,4): the mask agrees with edge-reachability there. -/
theorem removeBackground_zeroes_exactly_edge_reachable_witness :
    ((4, 4) ∈ bgMask ringImg ↔ reachableBg ringImg (4, 4)) ∧
    ((4, 4) ∈ bgMask ringImg →
      (makeBackgroundTransparent ringImg).pix 4 4 = ⟨0, 0, 0, 0⟩) ∧
    ((4, 4) ∉ bgMask ringImg →
      (makeBackgroundTransparent ringImg).pix 4 4 = ringImg.pix 4 4) :=
  removeBackground_zeroes_exactly_edge_reachable ringImg 4 4 (by decide) (by decide)

/-- C10: on a non-empty image in which every pixel has the same color,
`RemoveBackground` makes every pixel fully transparent — there is no
return-input-unchanged policy for background removal. -/
theorem removeBackground_uniform_all_transparent (img : Image)
    (hw : 0 < img.width) (hh : 0 < img.height)
    (huni : ∀ x, x < img.width → ∀ y, y < img.height → img.pix x y = img.pix 0 0) :
    ∀ x, x < img.width → ∀ y, y < img.height →
      ((makeBackgroundTransparent img).pix x y).a = 0 := by
  have hcell : ∀ x, x < img.width → ∀ y, y < img.height → bgCell img (x, y) := by
    intro x hx y hy
    refine ⟨hx, hy, ?_⟩
    show img.At x y = img.At 0 0
    rw [IAt_eq_pix img hx hy, IAt_eq_pix img hw hh]
    exact huni x hx y hy
  intro x hx y hy
  have hreach : reachableBg img (x, y) := by
    refine ⟨(x, 0), ⟨hx, hh, Or.inr (Or.inr (Or.inl rfl))⟩, hcell x hx 0 hh, ?_⟩
    have hpath : ∀ k, k < img.height → Relation.ReflTransGen (bgStep img) (x, 0) (x, k) := by
      intro k
      induction k with
      | zero => intro _; exact Relation.ReflTransGen.refl
      | succ n ihn =>
        intro hk
        refine (ihn (by omega)).tail ?_
        exact ⟨Or.inl ⟨rfl, Or.inl rfl⟩, hcell x hx (n + 1) hk⟩
    exact hpath y hy
  have hm : (x, y) ∈ bgMask img := (bgMask_mem_iff img hw hh (x, y)).mpr hreach
  simp only [makeBackgroundTransparent]
  rw [if_pos hm]

/-- Witness for C10: the all-white 5×5 image becomes fully transparent at
pixel (2,2). -/
theorem removeBackground_uniform_all_transparent_witness :
    ((makeBackgroundTransparent uniform5).pix 2 2).a = 0 :=
  removeBackground_uniform_all_transparent uniform5 (by decide) (by decide)
    (fun _ _ _ _ => rfl) 2 (by decide) 2 (by decide)
